import Mathlib

/-!
# MyChainingHashMap (src/unordered_map/unordered_map.hpp)

A shallow embedding of the separate-chaining hash map and the proofs of its
contract.

Modelling conventions.

* `std::vector<std::list<KVNode>>` is a `List (List (KVNode K V))`; the bucket
  access `table[i]` is `table.getD i []` and the write-back of a modified bucket
  is `table.set i bucket`.
* A `size_t` value is a natural number and an `int` value an integer.
  `sizeMul` is the multiplication of `size_t` (modulo `2 ^ 64`) and `toInt` the
  conversion of a `size_t` value to `int` (the low 32 bits in two's complement):
  `put` calls `resize(table.size() * 2)`, whose parameter is an `int`, so from
  `2 ^ 30` buckets on the requested capacity is negative and `resize` clamps it
  to `1`.
* The constructor takes an `int`; `construct` accepts every integer, and the
  states built from arguments beyond `INT_MAX` are not states of the program.
  For the table lengths the program can have, `table.size() / 4` in `remove`
  fits in `int` and `size_++` does not overflow, so both are exact.
* `size_ >= table.size() * 0.75` compares two doubles; `0.75 = 3 / 4` is a binary
  fraction, so the comparison is the exact integer comparison
  `3 * table.size() <= 4 * size_`.
* `size_ <= table.size() / 8` compares an `int` with a `size_t`: the `int` is
  converted to unsigned, so a negative `size_` is never below the bound.
* `put` and `resize` call each other.  `putF fuel` allows `fuel` nested calls of
  `resize`; it returns `none` when the nesting is deeper.
* A state without any bucket cannot be built by the constructors.  There `hash`
  divides by zero in the source: `putF` and `removeF` return `none` on such a
  state.  `scan`, `get` and `hash` are used on states with a bucket only.
* `Op`, `step` and `run` describe a sequence of calls; `refPut`, `refRemove`,
  `refGet`, `refSize` and `refKeys` are the reference finite map the hash map is
  compared with; `Traced` pairs a state with the insertion order of its keys.
* `fillOps n` is the sequence `put(0, 0)`, ..., `put(n - 1, n - 1)` and
  `filled c n` the state it leaves from the capacity `c` while no call grows the
  table; `bigMap` is `filled (2 ^ 30) (3 * 2 ^ 28 - 1)`, the state from which
  one more insertion requests the capacity `2 ^ 31`.
-/

set_option autoImplicit false

/-- The hash facility `std::hash<K>`: a deterministic function to `size_t`. -/
class StdHash (K : Type) where
  /-- The value `std::hash<K>{}(key)`. -/
  stdHash : K → Nat

/-- A value type that can be built from `nullptr` (what `get` returns for a
missing key). -/
class HasNullptr (V : Type) where
  /-- The value `V(nullptr)`. -/
  nullptr : V

/-- The node of a chain: one key-value pair. -/
structure KVNode (K V : Type) where
  /-- The key of the pair. -/
  key : K
  /-- The value of the pair. -/
  value : V
deriving DecidableEq, Repr

/-- The state of the map: the bucket array and the stored count. -/
structure MyChainingHashMap (K V : Type) where
  /-- The bucket array. -/
  table : List (List (KVNode K V))
  /-- The number of stored pairs. -/
  size_ : Int
deriving DecidableEq, Repr

/-- The instance `std::hash<int>`: the identity, converted to `size_t`. -/
instance : StdHash Int where
  stdHash k := (k % 2 ^ 64).toNat

/-- A `std::shared_ptr<T>` is either null or owns a value. -/
instance (T : Type) : HasNullptr (Option T) where
  nullptr := none

namespace MyChainingHashMap

variable {K V : Type} [DecidableEq K] [StdHash K]

/-- The initial capacity of the default constructor. -/
def INIT_CAP : Int := 4

/-- The member `hash`: the masked hash of the key modulo the table length.  The
source divides by `table.size()`, so the member has a value on a state with a
bucket only; `putF` and `removeF` test for a bucket before they use it. -/
def hash (m : MyChainingHashMap K V) (key : K) : Nat :=
  (StdHash.stdHash key &&& 0x7fffffff) % m.table.length

/-- The constructor `MyChainingHashMap(int initCapacity)`. -/
def construct (initCapacity : Int) : MyChainingHashMap K V :=
  let initCapacity := max initCapacity 1
  { table := List.replicate initCapacity.toNat [], size_ := 0 }

/-- The constructor `MyChainingHashMap()`. -/
def constructDefault : MyChainingHashMap K V :=
  construct INIT_CAP

/-- The loop of `put` over a bucket: the first node with an equal key gets the
new value; `none` when the loop ends without a match. -/
def assignFirst (key : K) (val : V) : List (KVNode K V) → Option (List (KVNode K V))
  | [] => none
  | node :: rest =>
    if node.key = key then some ({ node with value := val } :: rest)
    else (assignFirst key val rest).map (fun rest' => node :: rest')

/-- The loop of `remove` over a bucket: the first node with an equal key is
erased; `none` when the loop ends without a match. -/
def eraseFirst (key : K) : List (KVNode K V) → Option (List (KVNode K V))
  | [] => none
  | node :: rest =>
    if node.key = key then some rest
    else (eraseFirst key rest).map (fun rest' => node :: rest')

/-- The loop of `get` over the bucket of the key: the first node with an equal
key, if there is one. -/
def scan (m : MyChainingHashMap K V) (key : K) : Option (KVNode K V) :=
  (m.table.getD (m.hash key) []).find? (fun node => decide (node.key = key))

/-- The body of `resize`, over the `put` it calls on the temporary map. -/
def resizeWith (putRec : MyChainingHashMap K V → K → V → Option (MyChainingHashMap K V))
    (m : MyChainingHashMap K V) (newCap : Int) : Option (MyChainingHashMap K V) :=
  let newCap := max newCap 1
  let newMap : MyChainingHashMap K V := construct newCap
  (m.table.foldlM
      (fun (newMap : MyChainingHashMap K V) (list : List (KVNode K V)) =>
        list.foldlM (fun newMap node => putRec newMap node.key node.value) newMap)
      newMap).map
    (fun newMap => { m with table := newMap.table })

/-- The multiplication of two `size_t` values, modulo `2 ^ 64`. -/
def sizeMul (a b : Nat) : Nat :=
  (a * b) % 18446744073709551616

/-- The conversion of a `size_t` value to `int`: the low 32 bits, read as a
two's complement number (`4294967296 = 2 ^ 32`, `2147483648 = 2 ^ 31`). -/
def toInt (n : Nat) : Int :=
  if n % 4294967296 < 2147483648 then ((n % 4294967296 : Nat) : Int)
  else ((n % 4294967296 : Nat) : Int) - 4294967296

/-- The member `put`, with at most `fuel` nested calls of `resize`. -/
def putF : Nat → MyChainingHashMap K V → K → V → Option (MyChainingHashMap K V)
  | fuel, m, key, val =>
    -- `hash` divides by `table.size()`: the call does not return without a bucket
    if m.table.length = 0 then none
    else
      let i := m.hash key
      let list := m.table.getD i []
      match assignFirst key val list with
      | some list' => some { m with table := m.table.set i list' }
      | none =>
        let m1 : MyChainingHashMap K V :=
          { table := m.table.set i (list ++ [⟨key, val⟩]), size_ := m.size_ + 1 }
        -- `size_ >= table.size() * 0.75`
        if 3 * (m1.table.length : Int) ≤ 4 * m1.size_ then
          match fuel with
          | 0 => none
          -- `resize(table.size() * 2)`: the `size_t` product is converted to `int`
          | fuel + 1 => resizeWith (putF fuel) m1 (toInt (sizeMul m1.table.length 2))
        else some m1

/-- The member `resize`, with at most `fuel` nested calls of `resize`, this one
included. -/
def resizeF : Nat → MyChainingHashMap K V → Int → Option (MyChainingHashMap K V)
  | 0, _, _ => none
  | fuel + 1, m, newCap => resizeWith (putF fuel) m newCap

/-- The member `remove`, with at most `fuel` nested calls of `resize`. -/
def removeF (fuel : Nat) (m : MyChainingHashMap K V) (key : K) :
    Option (MyChainingHashMap K V) :=
  -- `hash` divides by `table.size()`: the call does not return without a bucket
  if m.table.length = 0 then none
  else
    let i := m.hash key
    let list := m.table.getD i []
    match eraseFirst key list with
    | some list' =>
      let m1 : MyChainingHashMap K V := { table := m.table.set i list', size_ := m.size_ - 1 }
      -- `size_ <= table.size() / 8`, the left side converted to `size_t`
      if 0 ≤ m1.size_ ∧ m1.size_ ≤ ((m1.table.length / 8 : Nat) : Int) then
        resizeF fuel m1 ((m1.table.length / 4 : Nat) : Int)
      else some m1
    | none => some m

/-- The member `get`: the value of the node found by the scan, `nullptr` when
there is none. -/
def get [HasNullptr V] (m : MyChainingHashMap K V) (key : K) : V :=
  match m.scan key with
  | some node => node.value
  | none => HasNullptr.nullptr

/-- The member `keys`: every bucket in index order, every node of a bucket in
its order, each key pushed at the back of the result. -/
def keys (m : MyChainingHashMap K V) : List K :=
  m.table.foldl (fun keys list => list.foldl (fun keys node => keys ++ [node.key]) keys) []

/-- The member `size`. -/
def size (m : MyChainingHashMap K V) : Int :=
  m.size_

/-- The states a caller can observe: those built by a constructor followed by
calls of `put` and `remove` that return. -/
inductive Reachable : MyChainingHashMap K V → Prop
  | construct (initCapacity : Int) : Reachable (construct initCapacity)
  | put {m m' : MyChainingHashMap K V} (fuel : Nat) (key : K) (val : V) :
      Reachable m → putF fuel m key val = some m' → Reachable m'
  | remove {m m' : MyChainingHashMap K V} (fuel : Nat) (key : K) :
      Reachable m → removeF fuel m key = some m' → Reachable m'

/-- The pairs stored in the table, bucket after bucket. -/
def entries (m : MyChainingHashMap K V) : List (KVNode K V) :=
  m.table.flatten

/-- The index of a key in a table of `len` buckets. -/
def index (len : Nat) (key : K) : Nat :=
  (StdHash.stdHash key &&& 0x7fffffff) % len

/-- A well-formed table: it has a bucket, every node lies in the bucket of its
key, and no key occurs twice. -/
structure TableOK (t : List (List (KVNode K V))) : Prop where
  /-- The table has at least one bucket. -/
  pos : 0 < t.length
  /-- Every node lies in the bucket its key is hashed to. -/
  placed : ∀ (i : Nat) (h : i < t.length), ∀ node ∈ t[i], index t.length node.key = i
  /-- No key is stored twice. -/
  nodupKeys : (t.flatten.map KVNode.key).Nodup

/-- The invariant of the reachable states. -/
structure Inv (m : MyChainingHashMap K V) : Prop where
  /-- The table is well formed. -/
  tableOK : TableOK m.table
  /-- The count is the number of stored nodes. -/
  count : m.size_ = (m.table.flatten.length : Int)
  /-- The count is below the threshold of a grow. -/
  load : 4 * m.size_ < 3 * (m.table.length : Int)

/-- The state of `put` after the new node is appended and counted, before the
test of the load. -/
def appended (m : MyChainingHashMap K V) (key : K) (val : V) : MyChainingHashMap K V :=
  { table := m.table.set (m.hash key) (m.table.getD (m.hash key) [] ++ [⟨key, val⟩]),
    size_ := m.size_ + 1 }

/-- The state of `remove` after the bucket of the key is replaced by `list` and
the count is decremented, before the test of the load. -/
def erased (m : MyChainingHashMap K V) (key : K) (list : List (KVNode K V)) :
    MyChainingHashMap K V :=
  { table := m.table.set (m.hash key) list, size_ := m.size_ - 1 }

/-- The temporary map of `resize` when every re-insertion appends a node and
none of them triggers a nested resize. -/
def rehash (newCap : Int) (es : List (KVNode K V)) : MyChainingHashMap K V :=
  es.foldl (fun nm node => nm.appended node.key node.value) (construct newCap)

/-- What a returning `put key val` establishes from a state `m` that satisfies
the invariant. -/
structure PutPost (m : MyChainingHashMap K V) (key : K) (val : V)
    (m' : MyChainingHashMap K V) : Prop where
  /-- The invariant holds again. -/
  inv : Inv m'
  /-- The stored pairs are the new pair and the old pairs of the other keys. -/
  mem : ∀ node, node ∈ m'.entries ↔ node = ⟨key, val⟩ ∨ (node ∈ m.entries ∧ node.key ≠ key)
  /-- An update changes neither the count nor the table length. -/
  stored : ∀ old, m.scan key = some old →
    m'.size_ = m.size_ ∧ m'.table.length = m.table.length
  /-- An insertion counts the pair and doubles the table at the threshold. -/
  absent : m.scan key = none → m'.size_ = m.size_ + 1 ∧
    m'.table.length =
      if 3 * (m.table.length : Int) ≤ 4 * (m.size_ + 1) then m.table.length * 2
      else m.table.length

/-- What a returning `remove key` establishes from a state `m` that satisfies
the invariant. -/
structure RemovePost (m : MyChainingHashMap K V) (key : K)
    (m' : MyChainingHashMap K V) : Prop where
  /-- The invariant holds again. -/
  inv : Inv m'
  /-- The stored pairs are the old pairs of the other keys. -/
  mem : ∀ node, node ∈ m'.entries ↔ node ∈ m.entries ∧ node.key ≠ key
  /-- Nothing changes when the key is not stored. -/
  absent : m.scan key = none → m' = m
  /-- A removal discounts the pair and quarters the table at the threshold. -/
  stored : ∀ old, m.scan key = some old → m'.size_ = m.size_ - 1 ∧
    m'.table.length =
      if m.size_ - 1 ≤ ((m.table.length / 8 : Nat) : Int) then max (m.table.length / 4) 1
      else m.table.length

/-- The map of `main` after `put(1, 1)`: one node in a table of four buckets. -/
def mainOne : MyChainingHashMap Int (Option Int) :=
  { table := [[], [⟨1, some 1⟩], [], []], size_ := 1 }

/-- The map of `main` after `put(1, 1); put(2, 2)`: two nodes in a table of four
buckets, one insertion below the threshold of a grow. -/
def mainTwo : MyChainingHashMap Int (Option Int) :=
  { table := [[], [⟨1, some 1⟩], [⟨2, some 2⟩], []], size_ := 2 }

/-- The map of `main` after `put(1, 1); put(2, 2); put(3, 3)`: three nodes in a
table of eight buckets. -/
def mainThree : MyChainingHashMap Int (Option Int) :=
  { table := [[], [⟨1, some 1⟩], [⟨2, some 2⟩], [⟨3, some 3⟩], [], [], [], []], size_ := 3 }

/-- The map of `main` after the update `put(1, 100)`. -/
def mainUpdated : MyChainingHashMap Int (Option Int) :=
  { table := [[], [⟨1, some 100⟩], [⟨2, some 2⟩], [⟨3, some 3⟩], [], [], [], []], size_ := 3 }

/-- The map of `main` after `remove(2)`: two nodes in a table of eight buckets,
one removal above the threshold of a shrink. -/
def mainRemoved : MyChainingHashMap Int (Option Int) :=
  { table := [[], [⟨1, some 100⟩], [], [⟨3, some 3⟩], [], [], [], []], size_ := 2 }

/-- The map of `main` after its second `remove(1)`: one node, the table shrunk
from eight buckets to two. -/
def mainShrunk : MyChainingHashMap Int (Option Int) :=
  { table := [[], [⟨3, some 3⟩]], size_ := 1 }

/-- The map of `main` at its end, after `remove(3)`: no node, one bucket. -/
def mainEmpty : MyChainingHashMap Int (Option Int) :=
  { table := [[]], size_ := 0 }

/-- The map `mainEmpty` after one more `put(2, 2)`: one node, the table grown
from one bucket to two. -/
def mainRegrown : MyChainingHashMap Int (Option Int) :=
  { table := [[⟨2, some 2⟩], []], size_ := 1 }

/-- The map built with thirty-two buckets after `put(1, 1)`. -/
def wideOne : MyChainingHashMap Int (Option Int) :=
  { table := [[], [⟨1, some 1⟩]] ++ List.replicate 30 [], size_ := 1 }

/-- One call of the interface that changes the map. -/
inductive Op (K V : Type) where
  /-- The call `put(key, val)`. -/
  | put (key : K) (val : V)
  /-- The call `remove(key)`. -/
  | remove (key : K)

/-- One call on the hash map. -/
def step (fuel : Nat) (m : MyChainingHashMap K V) : Op K V → Option (MyChainingHashMap K V)
  | Op.put key val => putF fuel m key val
  | Op.remove key => removeF fuel m key

/-- A sequence of calls on the hash map, from left to right. -/
def run (fuel : Nat) (m : MyChainingHashMap K V) (ops : List (Op K V)) :
    Option (MyChainingHashMap K V) :=
  ops.foldlM (step fuel) m

/-- The reference finite map of the specification, a list of pairs with one
pair for a key: insert-or-update drops the pair of the key and adds the new
one. -/
def refPut (key : K) (val : V) (r : List (KVNode K V)) : List (KVNode K V) :=
  r.filter (fun node => decide (node.key ≠ key)) ++ [⟨key, val⟩]

/-- The reference finite map: remove drops the pair of the key. -/
def refRemove (key : K) (r : List (KVNode K V)) : List (KVNode K V) :=
  r.filter (fun node => decide (node.key ≠ key))

/-- The reference finite map: lookup yields the value of the pair of the key,
the absent sentinel when there is none. -/
def refGet [HasNullptr V] (key : K) (r : List (KVNode K V)) : V :=
  match r.find? (fun node => decide (node.key = key)) with
  | some node => node.value
  | none => HasNullptr.nullptr

/-- The reference finite map: the size query. -/
def refSize (r : List (KVNode K V)) : Int :=
  r.length

/-- The reference finite map: the key enumeration. -/
def refKeys (r : List (KVNode K V)) : List K :=
  r.map KVNode.key

/-- One call on the reference finite map. -/
def refStep (r : List (KVNode K V)) : Op K V → List (KVNode K V)
  | Op.put key val => refPut key val r
  | Op.remove key => refRemove key r

/-- A sequence of calls on the empty reference finite map. -/
def refRun (ops : List (Op K V)) : List (KVNode K V) :=
  ops.foldl refStep []

/-- The hash map `m` represents the reference finite map `r`: the same pairs,
no key twice. -/
structure Refines (m : MyChainingHashMap K V) (r : List (KVNode K V)) : Prop where
  /-- The hash map satisfies its invariant. -/
  inv : Inv m
  /-- The reference map has one pair for a key. -/
  nodup : (r.map KVNode.key).Nodup
  /-- The pairs are the same. -/
  mem : ∀ node, node ∈ m.entries ↔ node ∈ r

/-- A state with the list of the keys it stores, in the order of the `put`
calls that created their nodes: a `put` of a new key adds it at the end, a `put`
of a stored key keeps the list, a `remove` drops the key.  With `keep` only the
removals that leave the table length unchanged are followed. -/
inductive Traced (keep : Bool) : MyChainingHashMap K V → List K → Prop
  | construct (initCapacity : Int) : Traced keep (construct initCapacity) []
  | put {m m' : MyChainingHashMap K V} {order : List K} (fuel : Nat) (key : K) (val : V) :
      Traced keep m order → putF fuel m key val = some m' →
      Traced keep m' (if key ∈ order then order else order ++ [key])
  | remove {m m' : MyChainingHashMap K V} {order : List K} (fuel : Nat) (key : K) :
      Traced keep m order → removeF fuel m key = some m' →
      (keep = true → m'.table.length = m.table.length) →
      Traced keep m' (order.filter (fun k => decide (k ≠ key)))

/-- Every bucket lists its keys in the order of the list `order`. -/
structure Ordered (m : MyChainingHashMap K V) (order : List K) : Prop where
  /-- No key occurs twice in the list. -/
  nodup : order.Nodup
  /-- The keys of bucket `i` are the keys of the list with index `i`, in the
  order of the list. -/
  buckets : ∀ (i : Nat) (h : i < m.table.length),
    m.table[i].map KVNode.key = order.filter (fun k => decide (index m.table.length k = i))

/-- The map built with sixteen buckets after `put(5, 5)`. -/
def orderA : MyChainingHashMap Int (Option Int) :=
  { table := [[], [], [], [], [], [⟨5, some 5⟩]] ++ List.replicate 10 [], size_ := 1 }

/-- The map `orderA` after `put(1, 1)`. -/
def orderB : MyChainingHashMap Int (Option Int) :=
  { table := [[], [⟨1, some 1⟩], [], [], [], [⟨5, some 5⟩]] ++ List.replicate 10 [],
    size_ := 2 }

/-- The map `orderB` after `put(2, 2)`. -/
def orderC : MyChainingHashMap Int (Option Int) :=
  { table := [[], [⟨1, some 1⟩], [⟨2, some 2⟩], [], [], [⟨5, some 5⟩]] ++ List.replicate 10 [],
    size_ := 3 }

/-- The map `orderC` after `remove(2)`, which shrinks the table from sixteen
buckets to four: the keys `1` and `5` now share bucket `1`. -/
def orderShrunk : MyChainingHashMap Int (Option Int) :=
  { table := [[], [⟨1, some 1⟩, ⟨5, some 5⟩], [], []], size_ := 2 }

/-- The calls `put(0, 0)`, `put(1, 1)`, ..., `put(n - 1, n - 1)`, in this
order. -/
def fillOps (n : Nat) : List (Op Int (Option Int)) :=
  (List.range n).map (fun (i : Nat) => Op.put (i : Int) (some (i : Int)))

/-- The map built with capacity `c` after the calls `fillOps n`, when none of
them rebuilds the table. -/
def filled (c : Int) : Nat → MyChainingHashMap Int (Option Int)
  | 0 => construct c
  | n + 1 => (filled c n).appended (n : Int) (some (n : Int))

/-- The map built by `MyChainingHashMap(1 << 30)` after the insertion of the
`805306367` keys `0`, ..., `805306366`: `1073741824 = 2 ^ 30` buckets, and one
insertion below the threshold `3 * 2 ^ 28 = 805306368` of a grow. -/
def bigMap : MyChainingHashMap Int (Option Int) :=
  filled 1073741824 805306367

section Bucket

omit [StdHash K]

theorem assignFirst_eq_none_iff (key : K) (val : V) (l : List (KVNode K V)) :
    assignFirst key val l = none ↔ ∀ node ∈ l, node.key ≠ key := by
  induction l with
  | nil => simp [assignFirst]
  | cons a l ih =>
    by_cases h : a.key = key
    · simp [assignFirst, h]
    · simp [assignFirst, h, ih]

theorem eraseFirst_eq_none_iff (key : K) (l : List (KVNode K V)) :
    eraseFirst key l = none ↔ ∀ node ∈ l, node.key ≠ key := by
  induction l with
  | nil => simp [eraseFirst]
  | cons a l ih =>
    by_cases h : a.key = key
    · simp [eraseFirst, h]
    · simp [eraseFirst, h, ih]

theorem find_eq_none_iff (key : K) (l : List (KVNode K V)) :
    l.find? (fun node => decide (node.key = key)) = none ↔ ∀ node ∈ l, node.key ≠ key := by
  simp [List.find?_eq_none]

theorem find_eq_some_iff (key : K) (l : List (KVNode K V))
    (hnd : (l.map KVNode.key).Nodup) (node : KVNode K V) :
    l.find? (fun node => decide (node.key = key)) = some node ↔ node ∈ l ∧ node.key = key := by
  induction l with
  | nil => simp
  | cons a l ih =>
    rw [List.map_cons, List.nodup_cons] at hnd
    by_cases h : a.key = key
    · simp only [List.find?_cons, h, decide_True, Option.some.injEq, List.mem_cons]
      constructor
      · intro e; subst e; exact ⟨Or.inl rfl, h⟩
      · rintro ⟨hm | hm, hk⟩
        · exact hm.symm
        · exfalso; apply hnd.1; rw [h, ← hk]; exact List.mem_map_of_mem _ hm
    · simp only [List.find?_cons, h, decide_False, List.mem_cons, ih hnd.2]
      constructor
      · rintro ⟨hm, hk⟩; exact ⟨Or.inr hm, hk⟩
      · rintro ⟨hm | hm, hk⟩
        · subst hm; exact absurd hk h
        · exact ⟨hm, hk⟩

theorem assignFirst_perm {key : K} {val : V} {l l' : List (KVNode K V)}
    (h : assignFirst key val l = some l') :
    ∃ old r, old.key = key ∧ l.Perm (old :: r) ∧ l'.Perm (⟨key, val⟩ :: r) := by
  induction l generalizing l' with
  | nil => simp [assignFirst] at h
  | cons a l ih =>
    by_cases hk : a.key = key
    · simp [assignFirst, hk] at h; subst h
      exact ⟨a, l, hk, List.Perm.refl _, List.Perm.refl _⟩
    · simp only [assignFirst, hk, if_false, Option.map_eq_some'] at h
      obtain ⟨r, hr, rfl⟩ := h
      obtain ⟨old, r', ho, hp, hp'⟩ := ih hr
      exact ⟨old, a :: r', ho, (hp.cons a).trans (List.Perm.swap old a r'),
        (hp'.cons a).trans (List.Perm.swap _ a r')⟩

theorem eraseFirst_perm {key : K} {l l' : List (KVNode K V)}
    (h : eraseFirst key l = some l') : ∃ old, old.key = key ∧ l.Perm (old :: l') := by
  induction l generalizing l' with
  | nil => simp [eraseFirst] at h
  | cons a l ih =>
    by_cases hk : a.key = key
    · simp [eraseFirst, hk] at h; subst h
      exact ⟨a, hk, List.Perm.refl _⟩
    · simp only [eraseFirst, hk, if_false, Option.map_eq_some'] at h
      obtain ⟨r, hr, rfl⟩ := h
      obtain ⟨old, ho, hp⟩ := ih hr
      exact ⟨old, ho, (hp.cons a).trans (List.Perm.swap old a r)⟩

end Bucket

/-! ## One bucket inside the table -/

section Table

omit [DecidableEq K] [StdHash K] in
theorem flatten_set_split (t : List (List (KVNode K V))) (i : Nat) (h : i < t.length) :
    ∃ FA FB : List (KVNode K V), t.flatten = FA ++ (t[i] ++ FB) ∧
      ∀ x, (t.set i x).flatten = FA ++ (x ++ FB) := by
  refine ⟨(t.take i).flatten, (t.drop (i + 1)).flatten, ?_, ?_⟩
  · have ht : (t.take i ++ t[i] :: t.drop (i + 1)).flatten = t.flatten := by
      rw [List.getElem_cons_drop _ _ h, List.take_append_drop]
    rw [← ht, List.flatten_append, List.flatten_cons]
  · intro x
    rw [List.set_eq_take_append_cons_drop, if_pos h]
    simp

omit [DecidableEq K] [StdHash K] in
theorem getD_eq (t : List (List (KVNode K V))) (i : Nat) (h : i < t.length) :
    t.getD i [] = t[i] :=
  List.getD_eq_getElem _ _ h

omit [DecidableEq K] in
theorem index_lt (len : Nat) (h : 0 < len) (key : K) : index len key < len :=
  Nat.mod_lt _ h

omit [DecidableEq K] in
theorem hash_eq_index (m : MyChainingHashMap K V) (key : K) :
    m.hash key = index m.table.length key := rfl

omit [DecidableEq K] [StdHash K] in
theorem bucket_sublist {t : List (List (KVNode K V))} (i : Nat) (h : i < t.length) :
    t[i].Sublist t.flatten :=
  List.sublist_flatten_of_mem (List.getElem_mem h)

omit [DecidableEq K] in
theorem TableOK.bucket_nodup {t : List (List (KVNode K V))} (hok : TableOK t)
    (i : Nat) (h : i < t.length) : (t[i].map KVNode.key).Nodup :=
  List.Nodup.sublist ((bucket_sublist i h).map _) hok.nodupKeys

omit [DecidableEq K] in
theorem TableOK.mem_bucket {t : List (List (KVNode K V))} (hok : TableOK t)
    {node : KVNode K V} (hm : node ∈ t.flatten) :
    ∃ h : index t.length node.key < t.length, node ∈ t[index t.length node.key] := by
  obtain ⟨l, hl, hn⟩ := List.mem_flatten.1 hm
  obtain ⟨j, hj, rfl⟩ := List.mem_iff_getElem.1 hl
  have := hok.placed j hj node hn
  refine ⟨index_lt _ hok.pos _, ?_⟩
  simp only [this]
  exact hn

theorem scan_eq_some_iff {m : MyChainingHashMap K V} (hok : TableOK m.table)
    (key : K) (node : KVNode K V) :
    m.scan key = some node ↔ node ∈ m.entries ∧ node.key = key := by
  have hi : m.hash key < m.table.length := index_lt _ hok.pos _
  unfold scan entries
  rw [getD_eq _ _ hi, find_eq_some_iff _ _ (hok.bucket_nodup _ hi)]
  constructor
  · rintro ⟨hm, hk⟩
    exact ⟨(bucket_sublist _ hi).subset hm, hk⟩
  · rintro ⟨hm, hk⟩
    refine ⟨?_, hk⟩
    obtain ⟨_, this⟩ := hok.mem_bucket hm
    simp only [hk] at this
    exact this

theorem scan_eq_none_iff {m : MyChainingHashMap K V} (hok : TableOK m.table) (key : K) :
    m.scan key = none ↔ ∀ node ∈ m.entries, node.key ≠ key := by
  constructor
  · intro h node hm hk
    have := (scan_eq_some_iff hok key node).2 ⟨hm, hk⟩
    rw [h] at this
    exact Option.noConfusion this
  · intro h
    cases hs : m.scan key with
    | none => rfl
    | some node =>
      have := (scan_eq_some_iff hok key node).1 hs
      exact absurd this.2 (h node this.1)

omit [DecidableEq K] [StdHash K] in
theorem set_perm_cons (t : List (List (KVNode K V))) (i : Nat) (h : i < t.length)
    (x : List (KVNode K V)) (b : KVNode K V) (hx : x.Perm (b :: t[i])) :
    (t.set i x).flatten.Perm (b :: t.flatten) := by
  obtain ⟨FA, FB, h1, h2⟩ := flatten_set_split t i h
  rw [h1, h2]
  have h3 : (FA ++ (x ++ FB)).Perm (FA ++ (b :: (t[i] ++ FB))) :=
    List.Perm.append_left FA (List.Perm.append_right FB hx)
  exact h3.trans List.perm_middle

omit [DecidableEq K] [StdHash K] in
theorem set_perm_uncons (t : List (List (KVNode K V))) (i : Nat) (h : i < t.length)
    (x : List (KVNode K V)) (a : KVNode K V) (hx : t[i].Perm (a :: x)) :
    t.flatten.Perm (a :: (t.set i x).flatten) := by
  obtain ⟨FA, FB, h1, h2⟩ := flatten_set_split t i h
  rw [h1, h2]
  have h3 : (FA ++ (t[i] ++ FB)).Perm (FA ++ (a :: (x ++ FB))) :=
    List.Perm.append_left FA (List.Perm.append_right FB hx)
  exact h3.trans List.perm_middle

omit [DecidableEq K] [StdHash K] in
theorem mem_of_perm_cons {es R : List (KVNode K V)} {old : KVNode K V}
    (hp : es.Perm (old :: R)) (hnd : (es.map KVNode.key).Nodup) (node : KVNode K V) :
    node ∈ R ↔ node ∈ es ∧ node.key ≠ old.key := by
  have hnd' : ((old :: R).map KVNode.key).Nodup := (hp.map _).nodup_iff.1 hnd
  rw [List.map_cons, List.nodup_cons] at hnd'
  constructor
  · intro hm
    refine ⟨hp.mem_iff.2 (List.mem_cons_of_mem _ hm), ?_⟩
    intro e
    exact hnd'.1 (e ▸ List.mem_map_of_mem _ hm)
  · rintro ⟨hm, hne⟩
    rcases List.mem_cons.1 (hp.mem_iff.1 hm) with e | hm'
    · subst e; exact absurd rfl hne
    · exact hm'

omit [DecidableEq K] in
theorem TableOK.set {t : List (List (KVNode K V))} (hok : TableOK t) (i : Nat)
    (x : List (KVNode K V))
    (hx : ∀ node ∈ x, index t.length node.key = i)
    (hnd : ((t.set i x).flatten.map KVNode.key).Nodup) : TableOK (t.set i x) := by
  refine ⟨by simpa using hok.pos, ?_, hnd⟩
  intro j hj node hn
  rw [List.length_set] at hj ⊢
  rw [List.getElem_set] at hn
  by_cases hij : i = j
  · rw [if_pos hij] at hn
    rw [← hij]; exact hx node hn
  · rw [if_neg hij] at hn
    exact hok.placed j hj node hn

end Table

/-! ## The constructor -/

section Construct

omit [DecidableEq K] [StdHash K] in
theorem construct_length (c : Int) :
    (construct c : MyChainingHashMap K V).table.length = (max c 1).toNat := by
  simp [construct]

omit [DecidableEq K] [StdHash K] in
theorem construct_entries (c : Int) : (construct c : MyChainingHashMap K V).entries = [] := by
  simp [construct, entries]

omit [DecidableEq K] in
theorem construct_tableOK (c : Int) : TableOK (construct c : MyChainingHashMap K V).table := by
  have hpos : 0 < (max c 1).toNat := by
    have : (1 : Int) ≤ max c 1 := le_max_right _ _
    omega
  refine ⟨by rw [construct_length]; exact hpos, ?_, ?_⟩
  · intro i h node hn
    simp [construct] at hn
  · have := construct_entries (K := K) (V := V) c
    unfold entries at this
    rw [this]; simp

omit [DecidableEq K] in
theorem construct_inv (c : Int) : Inv (construct c : MyChainingHashMap K V) := by
  refine ⟨construct_tableOK c, ?_, ?_⟩
  · have := construct_entries (K := K) (V := V) c
    unfold entries at this
    rw [this]; simp [construct]
  · have hpos : 0 < ((construct c : MyChainingHashMap K V).table.length : Int) := by
      exact_mod_cast (construct_tableOK (K := K) (V := V) c).pos
    have : (construct c : MyChainingHashMap K V).size_ = 0 := rfl
    rw [this]; omega

end Construct

/-! ## The steps of `put` and `remove` before a resize -/

section Steps

theorem putF_of_assign (fuel : Nat) (m : MyChainingHashMap K V) (key : K) (val : V)
    (list : List (KVNode K V)) (hpos : 0 < m.table.length)
    (h : assignFirst key val (m.table.getD (m.hash key) []) = some list) :
    putF fuel m key val = some { m with table := m.table.set (m.hash key) list } := by
  have h0 : m.table.length ≠ 0 := by omega
  cases fuel <;> simp only [putF, h0, if_false, h]

theorem putF_of_absent (fuel : Nat) (m : MyChainingHashMap K V) (key : K) (val : V)
    (hpos : 0 < m.table.length)
    (h : assignFirst key val (m.table.getD (m.hash key) []) = none) :
    putF fuel m key val =
      if 3 * (m.table.length : Int) ≤ 4 * (m.size_ + 1) then
        resizeF fuel (m.appended key val) (toInt (sizeMul m.table.length 2))
      else some (m.appended key val) := by
  have h0 : m.table.length ≠ 0 := by omega
  cases fuel <;> simp only [putF, h0, if_false, h, resizeF, appended, List.length_set]

theorem removeF_of_erase (fuel : Nat) (m : MyChainingHashMap K V) (key : K)
    (list : List (KVNode K V)) (hpos : 0 < m.table.length)
    (h : eraseFirst key (m.table.getD (m.hash key) []) = some list) :
    removeF fuel m key =
      if 0 ≤ m.size_ - 1 ∧ m.size_ - 1 ≤ ((m.table.length / 8 : Nat) : Int) then
        resizeF fuel (m.erased key list) ((m.table.length / 4 : Nat) : Int)
      else some (m.erased key list) := by
  have h0 : m.table.length ≠ 0 := by omega
  simp only [removeF, h0, if_false, h, erased, List.length_set]

theorem removeF_of_absent (fuel : Nat) (m : MyChainingHashMap K V) (key : K)
    (hpos : 0 < m.table.length)
    (h : eraseFirst key (m.table.getD (m.hash key) []) = none) :
    removeF fuel m key = some m := by
  have h0 : m.table.length ≠ 0 := by omega
  simp only [removeF, h0, if_false, h]

omit [DecidableEq K] [StdHash K] in
theorem toInt_double {len : Nat} (h : len < 1073741824) :
    toInt (sizeMul len 2) = ((len * 2 : Nat) : Int) := by
  unfold toInt sizeMul
  rw [if_pos (by omega)]
  congr 1
  omega

omit [DecidableEq K] [StdHash K] in
theorem toInt_double_neg {len : Nat} (h1 : 1073741824 ≤ len) (h2 : len < 2147483648) :
    toInt (sizeMul len 2) < 0 := by
  unfold toInt sizeMul
  rw [if_neg (by omega)]
  omega

omit [DecidableEq K] [StdHash K] in
theorem toInt_lt (n : Nat) : toInt n < 2147483648 := by
  unfold toInt
  split <;> omega

theorem assignFirst_eq_none_of_scan {m : MyChainingHashMap K V} {key : K} (val : V)
    (h : m.scan key = none) : assignFirst key val (m.table.getD (m.hash key) []) = none := by
  rw [assignFirst_eq_none_iff]
  exact (find_eq_none_iff _ _).1 h

theorem eraseFirst_eq_none_of_scan {m : MyChainingHashMap K V} {key : K}
    (h : m.scan key = none) : eraseFirst key (m.table.getD (m.hash key) []) = none := by
  rw [eraseFirst_eq_none_iff]
  exact (find_eq_none_iff _ _).1 h

theorem assignFirst_isSome_of_scan {m : MyChainingHashMap K V} {key : K} (val : V)
    {node : KVNode K V} (h : m.scan key = some node) :
    ∃ list, assignFirst key val (m.table.getD (m.hash key) []) = some list := by
  cases ha : assignFirst key val (m.table.getD (m.hash key) []) with
  | some list => exact ⟨list, rfl⟩
  | none =>
    rw [assignFirst_eq_none_iff, ← find_eq_none_iff] at ha
    unfold scan at h
    rw [ha] at h
    exact Option.noConfusion h

theorem eraseFirst_isSome_of_scan {m : MyChainingHashMap K V} {key : K}
    {node : KVNode K V} (h : m.scan key = some node) :
    ∃ list, eraseFirst key (m.table.getD (m.hash key) []) = some list := by
  cases ha : eraseFirst key (m.table.getD (m.hash key) []) with
  | some list => exact ⟨list, rfl⟩
  | none =>
    rw [eraseFirst_eq_none_iff, ← find_eq_none_iff] at ha
    unfold scan at h
    rw [ha] at h
    exact Option.noConfusion h

end Steps

/-! ## The states between the scan and the test of the load -/

section StepFacts

omit [DecidableEq K] in
theorem appended_length (m : MyChainingHashMap K V) (key : K) (val : V) :
    (m.appended key val).table.length = m.table.length := by
  simp [appended]

omit [DecidableEq K] in
theorem appended_perm {m : MyChainingHashMap K V} (hok : TableOK m.table) (key : K) (val : V) :
    (m.appended key val).entries.Perm (⟨key, val⟩ :: m.entries) := by
  have hi : m.hash key < m.table.length := index_lt _ hok.pos _
  unfold appended entries
  apply set_perm_cons _ _ hi
  rw [getD_eq _ _ hi]
  exact List.perm_append_singleton _ _

theorem appended_tableOK {m : MyChainingHashMap K V} (hok : TableOK m.table) {key : K}
    (habs : m.scan key = none) (val : V) : TableOK (m.appended key val).table := by
  have hi : m.hash key < m.table.length := index_lt _ hok.pos _
  have hp := appended_perm hok key val
  have hnd : ((m.appended key val).entries.map KVNode.key).Nodup := by
    refine (hp.map KVNode.key).nodup_iff.2 ?_
    rw [List.map_cons, List.nodup_cons]
    refine ⟨?_, hok.nodupKeys⟩
    intro hmem
    obtain ⟨node, hn, hk⟩ := List.mem_map.1 hmem
    exact (scan_eq_none_iff hok key).1 habs node hn hk
  unfold appended entries at *
  apply hok.set _ _ _ hnd
  intro node hn
  rw [getD_eq _ _ hi] at hn
  rcases List.mem_append.1 hn with h | h
  · exact hok.placed _ hi node h
  · rw [List.mem_singleton] at h; subst h; rfl

omit [DecidableEq K] in
theorem assigned_facts {m : MyChainingHashMap K V} (hok : TableOK m.table) {key : K} {val : V}
    {list : List (KVNode K V)}
    (h : ∃ old r, old.key = key ∧ (m.table.getD (m.hash key) []).Perm (old :: r) ∧
      list.Perm (⟨key, val⟩ :: r)) :
    TableOK (m.table.set (m.hash key) list) ∧
      ∃ old R, old.key = key ∧ m.entries.Perm (old :: R) ∧
        (m.table.set (m.hash key) list).flatten.Perm (⟨key, val⟩ :: R) := by
  have hi : m.hash key < m.table.length := index_lt _ hok.pos _
  rw [getD_eq _ _ hi] at h
  obtain ⟨old, r, ho, hp, hp'⟩ := h
  have h1 := set_perm_uncons m.table _ hi r old hp
  have hi' : m.hash key < (m.table.set (m.hash key) r).length := by simpa using hi
  have h2 := set_perm_cons (m.table.set (m.hash key) r) _ hi' list ⟨key, val⟩
    (by simpa using hp')
  rw [List.set_set] at h2
  refine ⟨?_, old, _, ho, h1, h2⟩
  apply hok.set
  · intro node hn
    rcases List.mem_cons.1 (hp'.mem_iff.1 hn) with e | hr
    · subst e; rfl
    · exact hok.placed _ hi node (hp.mem_iff.2 (List.mem_cons_of_mem _ hr))
  · refine (h2.map KVNode.key).nodup_iff.2 ?_
    have := (h1.map KVNode.key).nodup_iff.1 hok.nodupKeys
    rw [List.map_cons, ho] at this
    exact this

omit [DecidableEq K] in
theorem erased_length (m : MyChainingHashMap K V) (key : K) (list : List (KVNode K V)) :
    (m.erased key list).table.length = m.table.length := by
  simp [erased]

omit [DecidableEq K] in
theorem erased_facts {m : MyChainingHashMap K V} (hok : TableOK m.table) {key : K}
    {list : List (KVNode K V)}
    (h : ∃ old, old.key = key ∧ (m.table.getD (m.hash key) []).Perm (old :: list)) :
    TableOK (m.erased key list).table ∧
      ∃ old, old.key = key ∧ m.entries.Perm (old :: (m.erased key list).entries) := by
  have hi : m.hash key < m.table.length := index_lt _ hok.pos _
  rw [getD_eq _ _ hi] at h
  obtain ⟨old, ho, hp⟩ := h
  have h1 := set_perm_uncons m.table _ hi list old hp
  refine ⟨?_, old, ho, h1⟩
  unfold erased
  apply hok.set
  · intro node hn
    exact hok.placed _ hi node (hp.mem_iff.2 (List.mem_cons_of_mem _ hn))
  · have := (h1.map KVNode.key).nodup_iff.1 hok.nodupKeys
    rw [List.map_cons, List.nodup_cons] at this
    exact this.2

end StepFacts

/-! ## The rebuild of the table -/

section Resize

omit [DecidableEq K] [StdHash K] in
theorem foldlM_flatten {α β : Type} (f : β → α → Option β) (t : List (List α)) (init : β) :
    t.foldlM (fun acc l => l.foldlM f acc) init = t.flatten.foldlM f init := by
  induction t generalizing init with
  | nil => simp
  | cons l t ih =>
    rw [List.foldlM_cons, List.flatten_cons, List.foldlM_append]
    cases l.foldlM f init with
    | none => rfl
    | some b => exact ih b

theorem putF_nogrow (fuel : Nat) {m : MyChainingHashMap K V} {key : K}
    (hpos : 0 < m.table.length)
    (habs : m.scan key = none) (hload : 4 * (m.size_ + 1) < 3 * (m.table.length : Int))
    (val : V) : putF fuel m key val = some (m.appended key val) := by
  rw [putF_of_absent fuel m key val hpos (assignFirst_eq_none_of_scan val habs), if_neg]
  omega

theorem fold_put (fuel C : Nat) (es : List (KVNode K V)) :
    ∀ acc : MyChainingHashMap K V, TableOK acc.table → acc.table.length = C →
      acc.size_ = (acc.entries.length : Int) →
      ((acc.entries ++ es).map KVNode.key).Nodup →
      4 * ((acc.entries.length : Int) + es.length) < 3 * C →
      es.foldlM (fun nm node => putF fuel nm node.key node.value) acc =
          some (es.foldl (fun nm node => nm.appended node.key node.value) acc) ∧
        TableOK (es.foldl (fun nm node => nm.appended node.key node.value) acc).table ∧
        (es.foldl (fun nm node => nm.appended node.key node.value) acc).table.length = C ∧
        (es.foldl (fun nm node => nm.appended node.key node.value) acc).entries.Perm
          (acc.entries ++ es) := by
  induction es with
  | nil =>
    intro acc hok hlen _ _ _
    exact ⟨rfl, hok, hlen, by simp⟩
  | cons e es ih =>
    intro acc hok hlen hsize hnd hload
    have hmid : (acc.entries ++ e :: es).Perm (e :: (acc.entries ++ es)) := List.perm_middle
    have hnd' := (hmid.map KVNode.key).nodup_iff.1 hnd
    rw [List.map_cons, List.nodup_cons] at hnd'
    have habs : acc.scan e.key = none := by
      rw [scan_eq_none_iff hok]
      intro node hn hk
      apply hnd'.1
      rw [← hk]
      exact List.mem_map_of_mem _ (List.mem_append_left _ hn)
    have hstep : putF fuel acc e.key e.value = some (acc.appended e.key e.value) := by
      apply putF_nogrow fuel hok.pos habs
      rw [hsize, hlen]
      simp only [List.length_cons, Nat.cast_add, Nat.cast_one] at hload
      omega
    have hp := appended_perm hok e.key e.value
    have he : (⟨e.key, e.value⟩ : KVNode K V) = e := rfl
    rw [he] at hp
    have hok1 := appended_tableOK hok habs e.value
    have hlen1 : (acc.appended e.key e.value).table.length = C := by
      rw [appended_length, hlen]
    have hsize1 : (acc.appended e.key e.value).size_ =
        ((acc.appended e.key e.value).entries.length : Int) := by
      rw [hp.length_eq]
      simp only [appended, hsize, List.length_cons, Nat.cast_add, Nat.cast_one]
    have hp1 : ((acc.appended e.key e.value).entries ++ es).Perm (acc.entries ++ e :: es) :=
      (List.Perm.append_right es hp).trans hmid.symm
    have hnd1 : (((acc.appended e.key e.value).entries ++ es).map KVNode.key).Nodup :=
      (hp1.map KVNode.key).nodup_iff.2 hnd
    have hload1 : 4 * (((acc.appended e.key e.value).entries.length : Int) + es.length)
        < 3 * C := by
      rw [hp.length_eq]
      simp only [List.length_cons, Nat.cast_add, Nat.cast_one] at hload ⊢
      omega
    obtain ⟨hf, hok', hlen', hperm'⟩ :=
      ih (acc.appended e.key e.value) hok1 hlen1 hsize1 hnd1 hload1
    refine ⟨?_, hok', hlen', hperm'.trans hp1⟩
    rw [List.foldlM_cons, hstep]
    exact hf

theorem resizeF_spec (fuel : Nat) (m : MyChainingHashMap K V) (newCap : Int)
    (hnd : (m.entries.map KVNode.key).Nodup)
    (hload : 4 * (m.entries.length : Int) < 3 * max newCap 1) :
    resizeF (fuel + 1) m newCap =
        some { m with table := (rehash (max newCap 1) m.entries).table } ∧
      TableOK (rehash (max newCap 1) m.entries : MyChainingHashMap K V).table ∧
      ((rehash (max newCap 1) m.entries : MyChainingHashMap K V).table.length : Int)
        = max newCap 1 ∧
      (rehash (max newCap 1) m.entries : MyChainingHashMap K V).entries.Perm m.entries := by
  have h1 : (1 : Int) ≤ max newCap 1 := le_max_right _ _
  have hC : (construct (max newCap 1) : MyChainingHashMap K V).table.length
      = (max newCap 1).toNat := by
    rw [construct_length, max_eq_left h1]
  have hE := construct_entries (K := K) (V := V) (max newCap 1)
  obtain ⟨hf, hok', hlen', hperm'⟩ :=
    fold_put fuel (max newCap 1).toNat m.entries (construct (max newCap 1))
      (construct_tableOK _) hC (by rw [hE]; rfl) (by rw [hE]; simpa using hnd)
      (by rw [hE]; simp only [List.length_nil, Nat.cast_zero, zero_add]; omega)
  refine ⟨?_, hok', ?_, ?_⟩
  · simp only [resizeF, resizeWith]
    rw [foldlM_flatten]
    unfold entries at hf
    rw [hf]
    rfl
  · unfold rehash; rw [hlen']; omega
  · rw [hE] at hperm'
    simpa using hperm'

end Resize

/-! ## One call of `put` or `remove` from a state that satisfies the invariant -/

section Calls

theorem mem_of_absent {m : MyChainingHashMap K V} (hok : TableOK m.table) {key : K}
    (habs : m.scan key = none) (val : V) {es : List (KVNode K V)}
    (hp : es.Perm (⟨key, val⟩ :: m.entries)) (node : KVNode K V) :
    node ∈ es ↔ node = ⟨key, val⟩ ∨ (node ∈ m.entries ∧ node.key ≠ key) := by
  rw [hp.mem_iff, List.mem_cons]
  constructor
  · rintro (h | h)
    · exact Or.inl h
    · exact Or.inr ⟨h, (scan_eq_none_iff hok key).1 habs node h⟩
  · rintro (h | h)
    · exact Or.inl h
    · exact Or.inr h.1

theorem putF_cases {m : MyChainingHashMap K V} (hinv : Inv m) (fuel : Nat) (key : K) (val : V) :
    (fuel = 0 ∧ m.scan key = none ∧ 3 * (m.table.length : Int) ≤ 4 * (m.size_ + 1)) ∨
      (m.scan key = none ∧ 3 * (m.table.length : Int) ≤ 4 * (m.size_ + 1) ∧
        1073741824 ≤ m.table.length) ∨
      ∃ m', putF fuel m key val = some m' ∧ PutPost m key val m' := by
  have hok := hinv.tableOK
  have hL : 0 < m.table.length := hok.pos
  cases hs : m.scan key with
  | some old =>
    right; right
    obtain ⟨list, hl⟩ := assignFirst_isSome_of_scan val hs
    obtain ⟨hok', old', R, ho, hp, hp'⟩ := assigned_facts hok (assignFirst_perm hl)
    refine ⟨_, putF_of_assign fuel m key val list hL hl, ⟨hok', ?_, ?_⟩, ?_, ?_, ?_⟩
    · have h1 := hp.length_eq
      have h2 := hp'.length_eq
      have h3 := hinv.count
      simp only [entries, List.length_cons] at h1 h2 h3 ⊢
      omega
    · have := hinv.load
      simpa using this
    · intro node
      show node ∈ (m.table.set (m.hash key) list).flatten ↔ _
      rw [hp'.mem_iff, List.mem_cons, mem_of_perm_cons hp hok.nodupKeys node, ho]
    · intro _ _
      exact ⟨rfl, by simp⟩
    · intro h; rw [hs] at h; exact Option.noConfusion h
  | none =>
    have hA := appended_tableOK hok hs val
    have hpA := appended_perm hok key val
    have hlenA := appended_length m key val
    have hcount := hinv.count
    have hload := hinv.load
    have hsizeA : (m.appended key val).size_ = m.size_ + 1 := rfl
    have hentA : ((m.appended key val).entries.length : Int) = m.size_ + 1 := by
      rw [hpA.length_eq, hcount]
      simp [entries]
    have hsize0 : 0 ≤ m.size_ := by rw [hcount]; exact Int.natCast_nonneg _
    rw [putF_of_absent fuel m key val hL (assignFirst_eq_none_of_scan val hs)]
    by_cases hg : 3 * (m.table.length : Int) ≤ 4 * (m.size_ + 1)
    · rw [if_pos hg]
      cases fuel with
      | zero => exact Or.inl ⟨rfl, rfl, hg⟩
      | succ fuel =>
        by_cases hfit : m.table.length < 1073741824
        · right; right
          rw [toInt_double hfit]
          have hmax : max ((m.table.length * 2 : Nat) : Int) 1
              = ((m.table.length * 2 : Nat) : Int) := max_eq_left (by omega)
          have hbound : 4 * (m.size_ + 1) < 3 * ((m.table.length * 2 : Nat) : Int) := by
            rcases (by omega : m.table.length = 1 ∨ 2 ≤ m.table.length) with h1 | h2
            · rw [h1] at hload ⊢; omega
            · push_cast; omega
          obtain ⟨hr, hokT, hlenT, hpermT⟩ :=
            resizeF_spec fuel (m.appended key val) ((m.table.length * 2 : Nat) : Int)
              hA.nodupKeys (by rw [hmax, hentA]; exact hbound)
          have hlenT' := hlenT.trans hmax
          refine ⟨_, hr, ⟨hokT, ?_, ?_⟩, ?_, ?_, ?_⟩
          · show (m.appended key val).size_ = ((rehash _ _).entries.length : Int)
            rw [hpermT.length_eq, hentA, hsizeA]
          · show 4 * (m.appended key val).size_ < 3 * ((rehash _ _).table.length : Int)
            rw [hsizeA, hlenT']; exact hbound
          · intro node
            exact mem_of_absent hok hs val (hpermT.trans hpA) node
          · intro old h; rw [hs] at h; exact Option.noConfusion h
          · intro _
            refine ⟨hsizeA, ?_⟩
            rw [if_pos hg]
            show (rehash _ _).table.length = _
            exact_mod_cast hlenT'
        · exact Or.inr (Or.inl ⟨rfl, hg, by omega⟩)
    · rw [if_neg hg]
      right; right
      refine ⟨_, rfl, ⟨hA, ?_, ?_⟩, ?_, ?_, ?_⟩
      · rw [hsizeA, ← hentA]; rfl
      · rw [hsizeA, hlenA]; omega
      · intro node
        exact mem_of_absent hok hs val hpA node
      · intro old h; rw [hs] at h; exact Option.noConfusion h
      · intro _
        exact ⟨hsizeA, by rw [if_neg hg, hlenA]⟩

theorem removeF_cases {m : MyChainingHashMap K V} (hinv : Inv m) (fuel : Nat) (key : K) :
    (fuel = 0 ∧ (∃ old, m.scan key = some old) ∧
        m.size_ - 1 ≤ ((m.table.length / 8 : Nat) : Int)) ∨
      ∃ m', removeF fuel m key = some m' ∧ RemovePost m key m' := by
  have hok := hinv.tableOK
  have hcount := hinv.count
  have hload := hinv.load
  cases hs : m.scan key with
  | none =>
    right
    refine ⟨m, removeF_of_absent fuel m key hok.pos (eraseFirst_eq_none_of_scan hs), hinv,
      ?_, ?_, ?_⟩
    · intro node
      exact ⟨fun h => ⟨h, (scan_eq_none_iff hok key).1 hs node h⟩, fun h => h.1⟩
    · intro _; rfl
    · intro old h; rw [hs] at h; exact Option.noConfusion h
  | some old =>
    obtain ⟨list, hl⟩ := eraseFirst_isSome_of_scan hs
    obtain ⟨hokE, old', ho, hp⟩ := erased_facts hok (eraseFirst_perm hl)
    have hlenE := erased_length m key list
    have hsizeE : (m.erased key list).size_ = m.size_ - 1 := rfl
    have hentE : ((m.erased key list).entries.length : Int) = m.size_ - 1 := by
      have := hp.length_eq
      simp only [entries, List.length_cons] at this ⊢
      rw [hcount, this]; push_cast; omega
    have hsize1 : 0 ≤ m.size_ - 1 := by rw [← hentE]; exact Int.natCast_nonneg _
    have hmem : ∀ node, node ∈ (m.erased key list).entries ↔
        node ∈ m.entries ∧ node.key ≠ key := by
      intro node
      rw [mem_of_perm_cons hp hok.nodupKeys node, ho]
    rw [removeF_of_erase fuel m key list hok.pos hl]
    by_cases hg : 0 ≤ m.size_ - 1 ∧ m.size_ - 1 ≤ ((m.table.length / 8 : Nat) : Int)
    · rw [if_pos hg]
      cases fuel with
      | zero => exact Or.inl ⟨rfl, ⟨old, rfl⟩, hg.2⟩
      | succ fuel =>
        right
        have hbound : 4 * (m.size_ - 1) < 3 * max ((m.table.length / 4 : Nat) : Int) 1 := by
          rcases Nat.eq_zero_or_pos (m.table.length / 4) with h0 | hpos
          · rw [h0]; simp only [Nat.cast_zero]
            rw [max_eq_right (by omega)]; omega
          · rw [max_eq_left (by omega)]; omega
        obtain ⟨hr, hokT, hlenT, hpermT⟩ :=
          resizeF_spec fuel (m.erased key list) ((m.table.length / 4 : Nat) : Int)
            hokE.nodupKeys (by rw [hentE]; exact hbound)
        refine ⟨_, hr, ⟨hokT, ?_, ?_⟩, ?_, ?_, ?_⟩
        · show (m.erased key list).size_ = ((rehash _ _).entries.length : Int)
          rw [hpermT.length_eq, hentE, hsizeE]
        · show 4 * (m.erased key list).size_ < 3 * ((rehash _ _).table.length : Int)
          rw [hsizeE, hlenT]; exact hbound
        · intro node
          exact (hpermT.mem_iff).trans (hmem node)
        · intro h; rw [hs] at h; exact Option.noConfusion h
        · intro _ _
          refine ⟨hsizeE, ?_⟩
          rw [if_pos hg.2]
          show (rehash _ _).table.length = _
          have : (((m.table.length / 4 : Nat) : Int) ⊔ 1 : Int)
              = ((max (m.table.length / 4) 1 : Nat) : Int) := by
            push_cast; rfl
          rw [this] at hlenT
          exact_mod_cast hlenT
    · rw [if_neg hg]
      right
      refine ⟨_, rfl, ⟨hokE, ?_, ?_⟩, hmem, ?_, ?_⟩
      · rw [hsizeE, ← hentE]; rfl
      · rw [hsizeE, hlenE]; omega
      · intro h; rw [hs] at h; exact Option.noConfusion h
      · intro _ _
        refine ⟨hsizeE, ?_⟩
        rw [if_neg (fun h => hg ⟨hsize1, h⟩), hlenE]

end Calls

/-! ## A `put` whose doubled capacity does not fit in `int` -/

section Wrap

omit [DecidableEq K] [StdHash K] in
theorem resizeWith_some
    {putRec : MyChainingHashMap K V → K → V → Option (MyChainingHashMap K V)}
    {m m' : MyChainingHashMap K V} {newCap : Int} (h : resizeWith putRec m newCap = some m') :
    ∃ nm, m.table.flatten.foldlM (fun nm node => putRec nm node.key node.value)
        (construct (max newCap 1)) = some nm ∧ m' = { m with table := nm.table } := by
  simp only [resizeWith, Option.map_eq_some'] at h
  obtain ⟨nm, hf, rfl⟩ := h
  rw [foldlM_flatten] at hf
  exact ⟨nm, hf, rfl⟩

theorem putF_some_cases {fuel : Nat} {m m' : MyChainingHashMap K V} {key : K} {val : V}
    (h : putF fuel m key val = some m') :
    m'.table.length = m.table.length ∨
      ∃ f, fuel = f + 1 ∧
        resizeWith (putF f) (m.appended key val) (toInt (sizeMul m.table.length 2))
          = some m' := by
  by_cases h0 : m.table.length = 0
  · have : putF fuel m key val = none := by
      cases fuel <;> simp only [putF, h0, if_true]
    rw [this] at h
    exact Option.noConfusion h
  · have hpos : 0 < m.table.length := by omega
    cases ha : assignFirst key val (m.table.getD (m.hash key) []) with
    | some list =>
      rw [putF_of_assign fuel m key val list hpos ha] at h
      cases h
      exact Or.inl (List.length_set _ _ _)
    | none =>
      rw [putF_of_absent fuel m key val hpos ha] at h
      split at h
      · cases fuel with
        | zero => exact Option.noConfusion h
        | succ f => exact Or.inr ⟨f, rfl, h⟩
      · cases h
        exact Or.inl (appended_length m key val)

theorem fold_length (Q : Nat → Prop) (f : Nat)
    (hstep : ∀ (m : MyChainingHashMap K V) (key : K) (val : V) (m' : MyChainingHashMap K V),
      putF f m key val = some m' → Q m.table.length → Q m'.table.length)
    (es : List (KVNode K V)) :
    ∀ acc acc' : MyChainingHashMap K V,
      es.foldlM (fun nm node => putF f nm node.key node.value) acc = some acc' →
      Q acc.table.length → Q acc'.table.length := by
  induction es with
  | nil =>
    intro acc acc' h hq
    cases h
    exact hq
  | cons e es ih =>
    intro acc acc' h hq
    rw [List.foldlM_cons] at h
    cases hp : putF f acc e.key e.value with
    | none => rw [hp] at h; exact Option.noConfusion h
    | some acc1 =>
      rw [hp] at h
      exact ih acc1 acc' h (hstep acc e.key e.value acc1 hp hq)

theorem putF_length (Q : Nat → Prop)
    (hQ : ∀ len, Q len → Q (max (toInt (sizeMul len 2)) 1).toNat) :
    ∀ (fuel : Nat) (m : MyChainingHashMap K V) (key : K) (val : V)
      (m' : MyChainingHashMap K V),
      putF fuel m key val = some m' → Q m.table.length → Q m'.table.length := by
  intro fuel
  induction fuel with
  | zero =>
    intro m key val m' h hq
    rcases putF_some_cases h with hl | ⟨f, hf, _⟩
    · rw [hl]; exact hq
    · omega
  | succ f ih =>
    intro m key val m' h hq
    rcases putF_some_cases h with hl | ⟨f', hf, hr⟩
    · rw [hl]; exact hq
    · have hff : f' = f := by omega
      subst hff
      obtain ⟨nm, hfold, rfl⟩ := resizeWith_some hr
      refine fold_length Q f' ih _ _ nm hfold ?_
      rw [construct_length, max_eq_left (le_max_right _ _)]
      exact hQ _ hq

theorem fold_post (f : Nat)
    (hpost : ∀ (m : MyChainingHashMap K V) (key : K) (val : V) (m' : MyChainingHashMap K V),
      Inv m → putF f m key val = some m' → PutPost m key val m')
    (es : List (KVNode K V)) :
    ∀ acc acc' : MyChainingHashMap K V, Inv acc → (es.map KVNode.key).Nodup →
      (∀ node ∈ acc.entries, node.key ∉ es.map KVNode.key) →
      es.foldlM (fun nm node => putF f nm node.key node.value) acc = some acc' →
      Inv acc' ∧ acc'.size_ = acc.size_ + (es.length : Int) := by
  induction es with
  | nil =>
    intro acc acc' hinv _ _ h
    cases h
    exact ⟨hinv, by simp⟩
  | cons e es ih =>
    intro acc acc' hinv hnd hdis h
    rw [List.foldlM_cons] at h
    rw [List.map_cons, List.nodup_cons] at hnd
    cases hp : putF f acc e.key e.value with
    | none => rw [hp] at h; exact Option.noConfusion h
    | some acc1 =>
      rw [hp] at h
      have hpo := hpost acc e.key e.value acc1 hinv hp
      have hs : acc.scan e.key = none := by
        rw [scan_eq_none_iff hinv.tableOK]
        intro node hn hk
        exact hdis node hn (by rw [hk]; exact List.mem_cons_self _ _)
      have hdis1 : ∀ node ∈ acc1.entries, node.key ∉ es.map KVNode.key := by
        intro node hn
        rcases (hpo.mem node).1 hn with e1 | ⟨hn', _⟩
        · rw [e1]; exact hnd.1
        · intro hk
          exact hdis node hn' (List.mem_cons_of_mem _ hk)
      obtain ⟨hinv', hsz⟩ := ih acc1 acc' hpo.inv hnd.2 hdis1 h
      refine ⟨hinv', ?_⟩
      rw [hsz, (hpo.absent hs).1, List.length_cons]
      push_cast
      omega

omit [DecidableEq K] [StdHash K] in
theorem pow_closed (len : Nat) (h : ∃ j, j ≤ 30 ∧ len = 2 ^ j) :
    ∃ j, j ≤ 30 ∧ (max (toInt (sizeMul len 2)) 1).toNat = 2 ^ j := by
  obtain ⟨j, hj, rfl⟩ := h
  by_cases h30 : j = 30
  · subst h30
    refine ⟨0, by omega, ?_⟩
    have hneg : toInt (sizeMul (2 ^ 30) 2) < 0 :=
      toInt_double_neg (by norm_num) (by norm_num)
    rw [max_eq_right (by omega)]
    rfl
  · have hle : 2 ^ j ≤ 2 ^ 29 := Nat.pow_le_pow_right (by norm_num) (by omega)
    have hlt : 2 ^ j < 1073741824 := lt_of_le_of_lt hle (by norm_num)
    have hpos : 0 < 2 ^ j := Nat.two_pow_pos j
    refine ⟨j + 1, by omega, ?_⟩
    rw [toInt_double hlt, max_eq_left (by omega), Int.toNat_ofNat, pow_succ]

omit [DecidableEq K] [StdHash K] in
theorem bound_closed (len : Nat) (_h : len ≤ 2147483647) :
    (max (toInt (sizeMul len 2)) 1).toNat ≤ 2147483647 := by
  have := toInt_lt (sizeMul len 2)
  rcases le_total (toInt (sizeMul len 2)) 1 with h | h
  · rw [max_eq_right h]; decide
  · rw [max_eq_left h]; omega

theorem putF_wrap_none :
    ∀ (fuel : Nat) (m : MyChainingHashMap K V) (key : K) (val : V), Inv m →
      m.scan key = none → 3 * (m.table.length : Int) ≤ 4 * (m.size_ + 1) →
      1073741824 ≤ m.table.length → putF fuel m key val = none := by
  intro fuel
  induction fuel with
  | zero =>
    intro m key val hinv hs hg _
    rw [putF_of_absent 0 m key val hinv.tableOK.pos (assignFirst_eq_none_of_scan val hs),
      if_pos hg]
    rfl
  | succ f ih =>
    intro m key val hinv hs hg hbig
    have hpost : ∀ (m : MyChainingHashMap K V) (key : K) (val : V)
        (m' : MyChainingHashMap K V),
        Inv m → putF f m key val = some m' → PutPost m key val m' := by
      intro m key val m' hinv h
      rcases putF_cases hinv f key val with ⟨h0, hs, hg⟩ | ⟨hs, hg, hbig⟩ | ⟨m'', h'', hp⟩
      · subst h0
        rw [putF_of_absent 0 m key val hinv.tableOK.pos
          (assignFirst_eq_none_of_scan val hs), if_pos hg] at h
        exact Option.noConfusion h
      · rw [ih m key val hinv hs hg hbig] at h
        exact Option.noConfusion h
      · rw [h] at h''
        cases h''
        exact hp
    cases hres : putF (f + 1) m key val with
    | none => rfl
    | some m' =>
      exfalso
      have hok := hinv.tableOK
      rw [putF_of_absent (f + 1) m key val hok.pos (assignFirst_eq_none_of_scan val hs),
        if_pos hg] at hres
      obtain ⟨nm, hfold, _⟩ := resizeWith_some (show resizeWith (putF f) _ _ = some m' from hres)
      have hA := appended_tableOK hok hs val
      have hentA : ((m.appended key val).entries.length : Int) = m.size_ + 1 := by
        rw [(appended_perm hok key val).length_eq, hinv.count]
        simp [entries]
      obtain ⟨hinvN, hszN⟩ := fold_post f hpost (m.appended key val).table.flatten
        (construct (max (toInt (sizeMul m.table.length 2)) 1)) nm (construct_inv _)
        hA.nodupKeys (by
          intro node hn
          rw [construct_entries] at hn
          exact absurd hn (List.not_mem_nil _)) hfold
      have hszN' : nm.size_ = m.size_ + 1 := by
        rw [hszN, ← hentA]
        show (0 : Int) + _ = _
        simp [entries]
      have hlen : nm.table.length ≤ m.table.length := by
        by_cases hlt : m.table.length < 2147483648
        · have hneg := toInt_double_neg hbig hlt
          have hmax : max (toInt (sizeMul m.table.length 2)) 1 = 1 :=
            max_eq_right (by omega)
          rw [hmax] at hfold
          obtain ⟨j, hj, hpow⟩ := fold_length (fun len => ∃ j, j ≤ 30 ∧ len = 2 ^ j) f
            (putF_length _ pow_closed f) _ _ nm hfold ⟨0, by omega, by
              rw [construct_length]; rfl⟩
          have : 2 ^ j ≤ 2 ^ 30 := Nat.pow_le_pow_right (by norm_num) hj
          rw [hpow]
          omega
        · have := fold_length (fun len => len ≤ 2147483647) f
            (putF_length _ bound_closed f) _ _ nm hfold (by
              rw [construct_length, max_eq_left (le_max_right _ _)]
              have := toInt_lt (sizeMul m.table.length 2)
              rcases le_total (toInt (sizeMul m.table.length 2)) 1 with h | h
              · rw [max_eq_right h]; decide
              · rw [max_eq_left h]; omega)
          omega
      have hload := hinvN.load
      rw [hszN'] at hload
      omega

theorem putF_post {fuel : Nat} {m m' : MyChainingHashMap K V} {key : K} {val : V}
    (hinv : Inv m) (h : putF fuel m key val = some m') : PutPost m key val m' := by
  rcases putF_cases hinv fuel key val with ⟨h0, hs, hg⟩ | ⟨hs, hg, hbig⟩ | ⟨m'', h'', hp⟩
  · subst h0
    rw [putF_of_absent 0 m key val hinv.tableOK.pos
      (assignFirst_eq_none_of_scan val hs), if_pos hg] at h
    exact Option.noConfusion h
  · rw [putF_wrap_none fuel m key val hinv hs hg hbig] at h
    exact Option.noConfusion h
  · rw [h] at h''
    cases h''
    exact hp

end Wrap

/-! ## The reachable states and what `get` and `keys` observe -/

section Observations

theorem Inv.one_le_size {m : MyChainingHashMap K V} (hinv : Inv m) {key : K}
    {old : KVNode K V} (hs : m.scan key = some old) : 1 ≤ m.size_ := by
  have hm := ((scan_eq_some_iff hinv.tableOK key old).1 hs).1
  have := List.length_pos_of_mem hm
  rw [hinv.count]
  unfold entries at this
  omega

theorem Reachable.inv {m : MyChainingHashMap K V} (hr : Reachable m) : Inv m := by
  induction hr with
  | construct c => exact construct_inv c
  | put fuel key val _ h ih => exact (putF_post ih h).inv
  | remove fuel key _ h ih =>
    rcases removeF_cases ih fuel key with ⟨h0, ⟨old, hs⟩, hg⟩ | ⟨m', h', hpost⟩
    · subst h0
      obtain ⟨list, hl⟩ := eraseFirst_isSome_of_scan hs
      have hsz := ih.one_le_size hs
      rw [removeF_of_erase 0 _ key list ih.tableOK.pos hl, if_pos ⟨by omega, hg⟩] at h
      exact Option.noConfusion h
    · rw [h] at h'
      cases h'
      exact hpost.inv

theorem putF_returns {m : MyChainingHashMap K V} (hinv : Inv m) (fuel : Nat) (hfuel : 1 ≤ fuel)
    (key : K) (val : V)
    (hfit : 3 * (m.table.length : Int) ≤ 4 * (m.size_ + 1) → m.table.length < 1073741824) :
    ∃ m', putF fuel m key val = some m' ∧ PutPost m key val m' := by
  rcases putF_cases hinv fuel key val with ⟨h0, _⟩ | ⟨_, hg, hbig⟩ | h
  · omega
  · have := hfit hg
    omega
  · exact h

theorem removeF_returns {m : MyChainingHashMap K V} (hinv : Inv m) (fuel : Nat)
    (hfuel : 1 ≤ fuel) (key : K) :
    ∃ m', removeF fuel m key = some m' ∧ RemovePost m key m' := by
  rcases removeF_cases hinv fuel key with ⟨h0, _⟩ | h
  · omega
  · exact h

theorem removeF_post {fuel : Nat} {m m' : MyChainingHashMap K V} {key : K}
    (hinv : Inv m) (h : removeF fuel m key = some m') : RemovePost m key m' := by
  rcases removeF_cases hinv fuel key with ⟨h0, ⟨old, hs⟩, hg⟩ | ⟨m'', h'', hp⟩
  · subst h0
    obtain ⟨list, hl⟩ := eraseFirst_isSome_of_scan hs
    have hsz := hinv.one_le_size hs
    rw [removeF_of_erase 0 _ key list hinv.tableOK.pos hl, if_pos ⟨by omega, hg⟩] at h
    exact Option.noConfusion h
  · rw [h] at h''
    cases h''
    exact hp

theorem putF_update_returns {m : MyChainingHashMap K V} (hinv : Inv m) (fuel : Nat)
    (key : K) (val : V) {old : KVNode K V} (hs : m.scan key = some old) :
    ∃ m', putF fuel m key val = some m' ∧ PutPost m key val m' := by
  rcases putF_cases hinv fuel key val with ⟨_, h, _⟩ | ⟨h, _⟩ | h
  · rw [hs] at h; exact Option.noConfusion h
  · rw [hs] at h; exact Option.noConfusion h
  · exact h

theorem get_of_scan [HasNullptr V] {m : MyChainingHashMap K V} {key : K} {node : KVNode K V}
    (h : m.scan key = some node) : m.get key = node.value := by
  simp [get, h]

theorem get_of_absent [HasNullptr V] {m : MyChainingHashMap K V} {key : K}
    (h : m.scan key = none) : m.get key = HasNullptr.nullptr := by
  simp [get, h]

theorem scan_congr {m m' : MyChainingHashMap K V} (hok : TableOK m.table)
    (hok' : TableOK m'.table) (key : K)
    (h : ∀ node, node.key = key → (node ∈ m'.entries ↔ node ∈ m.entries)) :
    m'.scan key = m.scan key := by
  cases hs : m.scan key with
  | none =>
    rw [scan_eq_none_iff hok']
    intro node hn hk
    exact (scan_eq_none_iff hok key).1 hs node ((h node hk).1 hn) hk
  | some node =>
    obtain ⟨hn, hk⟩ := (scan_eq_some_iff hok key node).1 hs
    exact (scan_eq_some_iff hok' key node).2 ⟨(h node hk).2 hn, hk⟩

omit [DecidableEq K] [StdHash K] in
theorem foldl_push_keys (l : List (KVNode K V)) (acc : List K) :
    l.foldl (fun keys node => keys ++ [node.key]) acc = acc ++ l.map KVNode.key := by
  induction l generalizing acc with
  | nil => simp
  | cons a l ih => simp [ih]

omit [DecidableEq K] [StdHash K] in
theorem foldl_buckets_keys (t : List (List (KVNode K V))) (acc : List K) :
    t.foldl (fun keys list => list.foldl (fun keys node => keys ++ [node.key]) keys) acc
      = acc ++ (t.map (fun list => list.map KVNode.key)).flatten := by
  induction t generalizing acc with
  | nil => simp
  | cons l t ih =>
    rw [List.foldl_cons, foldl_push_keys, ih]
    simp

omit [DecidableEq K] [StdHash K] in
theorem keys_eq_flatten (m : MyChainingHashMap K V) :
    m.keys = (m.table.map (fun list => list.map KVNode.key)).flatten := by
  unfold keys
  rw [foldl_buckets_keys]; rfl

omit [DecidableEq K] [StdHash K] in
theorem keys_eq_map (m : MyChainingHashMap K V) : m.keys = m.entries.map KVNode.key := by
  rw [keys_eq_flatten, entries, List.map_flatten]

theorem mem_keys_iff {m : MyChainingHashMap K V} (hok : TableOK m.table) (key : K) :
    key ∈ m.keys ↔ ∃ node, m.scan key = some node := by
  rw [keys_eq_map, List.mem_map]
  constructor
  · rintro ⟨node, hn, hk⟩
    exact ⟨node, (scan_eq_some_iff hok key node).2 ⟨hn, hk⟩⟩
  · rintro ⟨node, hs⟩
    exact ⟨node, (scan_eq_some_iff hok key node).1 hs⟩

theorem not_mem_keys_iff {m : MyChainingHashMap K V} (hok : TableOK m.table) (key : K) :
    key ∉ m.keys ↔ m.scan key = none := by
  rw [mem_keys_iff hok]
  cases m.scan key with
  | none => simp
  | some node => simp

theorem count_keys {m : MyChainingHashMap K V} (hok : TableOK m.table) (key : K) :
    m.keys.count key = if (m.scan key).isSome then 1 else 0 := by
  have hnd : m.keys.Nodup := by rw [keys_eq_map]; exact hok.nodupKeys
  cases hs : m.scan key with
  | none =>
    have := (not_mem_keys_iff hok key).2 hs
    simpa using List.count_eq_zero_of_not_mem this
  | some node =>
    have hm : key ∈ m.keys := (mem_keys_iff hok key).2 ⟨node, hs⟩
    simpa using List.count_eq_one_of_mem hnd hm

theorem put_frame {m m' : MyChainingHashMap K V} (hinv : Inv m) {key : K} {val : V}
    (hpost : PutPost m key val m') {key' : K} (hne : key ≠ key') :
    m'.scan key' = m.scan key' := by
  apply scan_congr hinv.tableOK hpost.inv.tableOK
  intro node hk
  rw [hpost.mem]
  constructor
  · rintro (e | h)
    · subst e; exact absurd hk hne
    · exact h.1
  · intro h
    exact Or.inr ⟨h, fun e => hne (e.symm.trans hk)⟩

theorem remove_frame {m m' : MyChainingHashMap K V} (hinv : Inv m) {key : K}
    (hpost : RemovePost m key m') {key' : K} (hne : key ≠ key') :
    m'.scan key' = m.scan key' := by
  apply scan_congr hinv.tableOK hpost.inv.tableOK
  intro node hk
  rw [hpost.mem]
  exact ⟨fun h => h.1, fun h => ⟨h, fun e => hne (e.symm.trans hk)⟩⟩

theorem remove_scan_self {m m' : MyChainingHashMap K V} {key : K}
    (hpost : RemovePost m key m') : m'.scan key = none := by
  rw [scan_eq_none_iff hpost.inv.tableOK]
  intro node hn
  exact ((hpost.mem node).1 hn).2

theorem put_scan_self {m m' : MyChainingHashMap K V} {key : K} {val : V}
    (hpost : PutPost m key val m') : m'.scan key = some ⟨key, val⟩ :=
  (scan_eq_some_iff hpost.inv.tableOK key _).2 ⟨(hpost.mem _).2 (Or.inl rfl), rfl⟩

end Observations

/-! ## The depth of the recursion between `put` and `resize` -/

section Depth

theorem PutPost.size_le {m m' : MyChainingHashMap K V} {key : K} {val : V}
    (hpost : PutPost m key val m') : m'.size_ ≤ m.size_ + 1 := by
  cases hs : m.scan key with
  | none => rw [(hpost.absent hs).1]
  | some old => rw [(hpost.stored old hs).1]; omega

omit [DecidableEq K] in
theorem appended_bound {m : MyChainingHashMap K V} (hinv : Inv m) {key : K}
    (val : V) :
    4 * ((m.appended key val).entries.length : Int)
      < 3 * max ((m.table.length * 2 : Nat) : Int) 1 := by
  have hL : 0 < m.table.length := hinv.tableOK.pos
  have hcount := hinv.count
  have hload := hinv.load
  have hlen : ((m.appended key val).entries.length : Int) = m.size_ + 1 := by
    rw [(appended_perm hinv.tableOK key val).length_eq, hcount]
    simp [entries]
  have hsize0 : 0 ≤ m.size_ := by rw [hcount]; exact Int.natCast_nonneg _
  rw [hlen, max_eq_left (by omega)]
  rcases (by omega : m.table.length = 1 ∨ 2 ≤ m.table.length) with h1 | h2
  · rw [h1] at hload ⊢; omega
  · push_cast; omega

theorem erased_bound {m : MyChainingHashMap K V} (hinv : Inv m) {key : K}
    {list : List (KVNode K V)}
    (hl : eraseFirst key (m.table.getD (m.hash key) []) = some list)
    (hg : m.size_ - 1 ≤ ((m.table.length / 8 : Nat) : Int)) :
    4 * ((m.erased key list).entries.length : Int)
      < 3 * max ((m.table.length / 4 : Nat) : Int) 1 := by
  obtain ⟨_, old, _, hp⟩ := erased_facts hinv.tableOK (eraseFirst_perm hl)
  have hcount := hinv.count
  have hlen : ((m.erased key list).entries.length : Int) = m.size_ - 1 := by
    have := hp.length_eq
    simp only [entries, List.length_cons] at this ⊢
    rw [hcount, this]; push_cast; omega
  rw [hlen]
  rcases Nat.eq_zero_or_pos (m.table.length / 4) with h0 | hpos
  · rw [h0]; simp only [Nat.cast_zero]
    rw [max_eq_right (by omega)]; omega
  · rw [max_eq_left (by omega)]; omega

end Depth

/-! ## The reference finite map -/

section Reference

omit [DecidableEq K] in
theorem refines_construct (c : Int) : Refines (construct c : MyChainingHashMap K V) [] := by
  refine ⟨construct_inv c, List.nodup_nil, ?_⟩
  intro node
  rw [construct_entries]

omit [StdHash K] in
theorem refRemove_nodup (key : K) {r : List (KVNode K V)} (h : (r.map KVNode.key).Nodup) :
    ((refRemove key r).map KVNode.key).Nodup :=
  List.Nodup.sublist ((List.filter_sublist r).map _) h

omit [StdHash K] in
theorem mem_refRemove (key : K) (r : List (KVNode K V)) (node : KVNode K V) :
    node ∈ refRemove key r ↔ node ∈ r ∧ node.key ≠ key := by
  simp [refRemove, List.mem_filter]

omit [StdHash K] in
theorem mem_refPut (key : K) (val : V) (r : List (KVNode K V)) (node : KVNode K V) :
    node ∈ refPut key val r ↔ node = ⟨key, val⟩ ∨ (node ∈ r ∧ node.key ≠ key) := by
  simp only [refPut, List.mem_append, List.mem_singleton]
  rw [← refRemove, mem_refRemove]
  exact Or.comm

omit [StdHash K] in
theorem refPut_nodup (key : K) (val : V) {r : List (KVNode K V)}
    (h : (r.map KVNode.key).Nodup) : ((refPut key val r).map KVNode.key).Nodup := by
  have h1 := refRemove_nodup key h
  unfold refPut
  rw [List.map_append]
  refine List.Nodup.append h1 (by simp) ?_
  intro k hk hk'
  simp only [List.map_cons, List.map_nil, List.mem_singleton] at hk'
  obtain ⟨node, hn, rfl⟩ := List.mem_map.1 hk
  exact ((mem_refRemove key r node).1 hn).2 hk'

theorem refines_put {m m' : MyChainingHashMap K V} {r : List (KVNode K V)} {key : K} {val : V}
    (h : Refines m r) (hpost : PutPost m key val m') : Refines m' (refPut key val r) := by
  refine ⟨hpost.inv, refPut_nodup key val h.nodup, ?_⟩
  intro node
  rw [hpost.mem, mem_refPut, h.mem]

theorem refines_remove {m m' : MyChainingHashMap K V} {r : List (KVNode K V)} {key : K}
    (h : Refines m r) (hpost : RemovePost m key m') : Refines m' (refRemove key r) := by
  refine ⟨hpost.inv, refRemove_nodup key h.nodup, ?_⟩
  intro node
  rw [hpost.mem, mem_refRemove, h.mem]

theorem run_cons (fuel : Nat) (m : MyChainingHashMap K V) (op : Op K V) (ops : List (Op K V)) :
    run fuel m (op :: ops) = (step fuel m op).bind (fun m1 => run fuel m1 ops) := by
  unfold run
  rw [List.foldlM_cons]
  rfl

theorem run_append (fuel : Nat) (m : MyChainingHashMap K V) (ops ops' : List (Op K V)) :
    run fuel m (ops ++ ops') = (run fuel m ops).bind (fun m1 => run fuel m1 ops') := by
  unfold run
  rw [List.foldlM_append]
  rfl

theorem run_refines (fuel : Nat) (ops : List (Op K V)) :
    ∀ (m m' : MyChainingHashMap K V) (r : List (KVNode K V)), Refines m r →
      run fuel m ops = some m' → Refines m' (ops.foldl refStep r) := by
  induction ops with
  | nil =>
    intro m m' r h hrun
    cases hrun
    exact h
  | cons op ops ih =>
    intro m m' r h hrun
    rw [run_cons] at hrun
    cases hst : step fuel m op with
    | none => rw [hst] at hrun; exact Option.noConfusion hrun
    | some m1 =>
      rw [hst] at hrun
      cases op with
      | put key val => exact ih m1 m' _ (refines_put h (putF_post h.inv hst)) hrun
      | remove key => exact ih m1 m' _ (refines_remove h (removeF_post h.inv hst)) hrun

theorem run_reachable (fuel : Nat) (ops : List (Op K V)) :
    ∀ (m m' : MyChainingHashMap K V), Reachable m → run fuel m ops = some m' →
      Reachable m' := by
  induction ops with
  | nil =>
    intro m m' h hrun
    cases hrun
    exact h
  | cons op ops ih =>
    intro m m' h hrun
    rw [run_cons] at hrun
    cases hst : step fuel m op with
    | none => rw [hst] at hrun; exact Option.noConfusion hrun
    | some m1 =>
      rw [hst] at hrun
      cases op with
      | put key val => exact ih m1 m' (Reachable.put fuel key val h hst) hrun
      | remove key => exact ih m1 m' (Reachable.remove fuel key h hst) hrun

theorem RemovePost.size_shrinks {m m' : MyChainingHashMap K V} {key : K}
    (hpost : RemovePost m key m') : m'.size_ ≤ m.size_ := by
  cases hs : m.scan key with
  | none => rw [hpost.absent hs]
  | some old => rw [(hpost.stored old hs).1]; omega

theorem run_returns (fuel : Nat) (hfuel : 1 ≤ fuel) (ops : List (Op K V)) :
    ∀ m : MyChainingHashMap K V, Inv m →
      4 * (m.size_ + (ops.length : Int)) < 3 * 1073741824 →
      ∃ m', run fuel m ops = some m' := by
  induction ops with
  | nil => intro m _ _; exact ⟨m, rfl⟩
  | cons op ops ih =>
    intro m hinv hb
    rw [List.length_cons] at hb
    push_cast at hb
    have hlen0 : (0 : Int) ≤ (ops.length : Int) := Int.natCast_nonneg _
    cases op with
    | put key val =>
      obtain ⟨m1, h1, hpost⟩ := putF_returns hinv fuel hfuel key val (fun hg => by omega)
      have hle := hpost.size_le
      obtain ⟨m', h'⟩ := ih m1 hpost.inv (by omega)
      refine ⟨m', ?_⟩
      rw [run_cons]
      simp only [step, h1]
      exact h'
    | remove key =>
      obtain ⟨m1, h1, hpost⟩ := removeF_returns hinv fuel hfuel key
      have hle := hpost.size_shrinks
      obtain ⟨m', h'⟩ := ih m1 hpost.inv (by omega)
      refine ⟨m', ?_⟩
      rw [run_cons]
      simp only [step, h1]
      exact h'

theorem Refines.scan_eq {m : MyChainingHashMap K V} {r : List (KVNode K V)}
    (h : Refines m r) (key : K) :
    m.scan key = r.find? (fun node => decide (node.key = key)) := by
  apply Option.ext
  intro node
  rw [Option.mem_def, Option.mem_def, scan_eq_some_iff h.inv.tableOK,
    find_eq_some_iff key r h.nodup, h.mem]

theorem Refines.get_eq [HasNullptr V] {m : MyChainingHashMap K V} {r : List (KVNode K V)}
    (h : Refines m r) (key : K) : m.get key = refGet key r := by
  simp only [get, refGet, h.scan_eq key]

omit [DecidableEq K] in
theorem Refines.entries_perm {m : MyChainingHashMap K V} {r : List (KVNode K V)}
    (h : Refines m r) : m.entries.Perm r :=
  (List.perm_ext_iff_of_nodup (List.Nodup.of_map _ h.inv.tableOK.nodupKeys)
    (List.Nodup.of_map _ h.nodup)).2 h.mem

omit [DecidableEq K] in
theorem Refines.size_eq {m : MyChainingHashMap K V} {r : List (KVNode K V)}
    (h : Refines m r) : m.size = refSize r := by
  show m.size_ = (r.length : Int)
  rw [h.inv.count, ← h.entries_perm.length_eq]
  rfl

omit [DecidableEq K] in
theorem Refines.keys_perm {m : MyChainingHashMap K V} {r : List (KVNode K V)}
    (h : Refines m r) : m.keys.Perm (refKeys r) := by
  rw [keys_eq_map]
  exact h.entries_perm.map _

end Reference

/-! ## The order of the nodes inside a bucket -/

section Order

omit [StdHash K] in
theorem assignFirst_keys {key : K} {val : V} {l l' : List (KVNode K V)}
    (h : assignFirst key val l = some l') : l'.map KVNode.key = l.map KVNode.key := by
  induction l generalizing l' with
  | nil => simp [assignFirst] at h
  | cons a l ih =>
    by_cases hk : a.key = key
    · simp [assignFirst, hk] at h; subst h; simp [hk]
    · simp only [assignFirst, hk, if_false, Option.map_eq_some'] at h
      obtain ⟨r, hr, rfl⟩ := h
      simp [ih hr]

omit [StdHash K] in
theorem eraseFirst_keys {key : K} {l l' : List (KVNode K V)}
    (h : eraseFirst key l = some l') (hnd : (l.map KVNode.key).Nodup) :
    l'.map KVNode.key = (l.map KVNode.key).filter (fun k => decide (k ≠ key)) := by
  induction l generalizing l' with
  | nil => simp [eraseFirst] at h
  | cons a l ih =>
    rw [List.map_cons, List.nodup_cons] at hnd
    by_cases hk : a.key = key
    · simp [eraseFirst, hk] at h; subst h
      rw [List.map_cons, List.filter_cons, hk]
      simp only [ne_eq, not_true_eq_false, decide_False, Bool.false_eq_true, if_false]
      symm
      rw [List.filter_eq_self]
      intro k hk'
      have : k ≠ key := fun e => hnd.1 (hk ▸ e ▸ hk')
      simpa using this
    · simp only [eraseFirst, hk, if_false, Option.map_eq_some'] at h
      obtain ⟨r, hr, rfl⟩ := h
      rw [List.map_cons, List.map_cons, List.filter_cons, ih hr hnd.2]
      simp [hk]

omit [DecidableEq K] in
theorem foldl_appended_bucket (C : Nat) (es : List (KVNode K V)) :
    ∀ acc : MyChainingHashMap K V, acc.table.length = C → ∀ j : Nat, j < C →
      (es.foldl (fun nm node => nm.appended node.key node.value) acc).table.getD j []
        = acc.table.getD j [] ++ es.filter (fun node => decide (index C node.key = j)) := by
  induction es with
  | nil => intro acc _ j _; simp
  | cons e es ih =>
    intro acc hlen j hj
    have hlen1 : (acc.appended e.key e.value).table.length = C := by
      rw [appended_length, hlen]
    rw [List.foldl_cons, ih _ hlen1 j hj]
    have hi : acc.hash e.key = index C e.key := by rw [hash_eq_index, hlen]
    have hilt : index C e.key < acc.table.length := by
      rw [hlen]; exact index_lt _ (by omega) _
    simp only [appended, hi]
    rw [List.getD_eq_getElem?_getD (acc.table.set _ _), List.getElem?_set, List.filter_cons]
    by_cases hij : index C e.key = j
    · subst hij
      simp [hilt, List.getD_eq_getElem?_getD]
    · simp [hij, List.getD_eq_getElem?_getD]

omit [DecidableEq K] in
theorem rehash_bucket (C : Int) (hC : 1 ≤ C) (es : List (KVNode K V)) (j : Nat)
    (hj : j < C.toNat) :
    (rehash C es : MyChainingHashMap K V).table.getD j []
      = es.filter (fun node => decide (index C.toNat node.key = j)) := by
  have hlen : (construct C : MyChainingHashMap K V).table.length = C.toNat := by
    rw [construct_length, max_eq_left hC]
  unfold rehash
  rw [foldl_appended_bucket C.toNat es _ hlen j hj]
  have : (construct C : MyChainingHashMap K V).table.getD j [] = [] := by
    rw [getD_eq _ _ (by rw [hlen]; exact hj)]
    simp [construct]
  rw [this, List.nil_append]

omit [DecidableEq K] in
theorem flatten_split_placed {t : List (List (KVNode K V))} (hok : TableOK t) (i : Nat)
    (h : i < t.length) :
    ∃ FA FB : List (KVNode K V), t.flatten = FA ++ (t[i] ++ FB) ∧
      (∀ x ∈ FA, index t.length x.key ≠ i) ∧ (∀ x ∈ FB, index t.length x.key ≠ i) := by
  obtain ⟨FA, FB, h1, _⟩ := flatten_set_split t i h
  have hnd : t.flatten.Nodup := List.Nodup.of_map _ hok.nodupKeys
  rw [h1, List.nodup_append] at hnd
  obtain ⟨_, hnd2, hdis⟩ := hnd
  rw [List.nodup_append] at hnd2
  refine ⟨FA, FB, h1, ?_, ?_⟩
  · intro x hx hidx
    have hm : x ∈ t.flatten := by rw [h1]; exact List.mem_append_left _ hx
    obtain ⟨_, hb⟩ := hok.mem_bucket hm
    simp only [hidx] at hb
    exact hdis hx (List.mem_append_left _ hb)
  · intro x hx hidx
    have hm : x ∈ t.flatten := by
      rw [h1]; exact List.mem_append_right _ (List.mem_append_right _ hx)
    obtain ⟨_, hb⟩ := hok.mem_bucket hm
    simp only [hidx] at hb
    exact hnd2.2.2 hb hx

omit [DecidableEq K] in
theorem index_mod_of_dvd {len C : Nat} (hdvd : len ∣ C) (key : K) :
    index C key % len = index len key := by
  unfold index
  exact Nat.mod_mod_of_dvd _ hdvd

omit [DecidableEq K] in
theorem ordered_rebuild {t : List (List (KVNode K V))} (hok : TableOK t) {order : List K}
    (hb : ∀ (i : Nat) (h : i < t.length),
      t[i].map KVNode.key = order.filter (fun k => decide (index t.length k = i)))
    (C : Nat) (hdvd : t.length ∣ C) (j : Nat) :
    (t.flatten.filter (fun node => decide (index C node.key = j))).map KVNode.key
      = order.filter (fun k => decide (index C k = j)) := by
  have hi0 : j % t.length < t.length := Nat.mod_lt _ hok.pos
  have hidx : ∀ k : K, index C k = j → index t.length k = j % t.length := by
    intro k hk
    rw [← index_mod_of_dvd hdvd, hk]
  obtain ⟨FA, FB, h1, hA, hB⟩ := flatten_split_placed hok (j % t.length) hi0
  have hFA : FA.filter (fun node => decide (index C node.key = j)) = [] := by
    rw [List.filter_eq_nil_iff]
    intro x hx hq
    exact hA x hx (hidx _ (of_decide_eq_true hq))
  have hFB : FB.filter (fun node => decide (index C node.key = j)) = [] := by
    rw [List.filter_eq_nil_iff]
    intro x hx hq
    exact hB x hx (hidx _ (of_decide_eq_true hq))
  rw [h1, List.filter_append, List.filter_append, hFA, hFB, List.nil_append, List.append_nil]
  rw [show (fun node : KVNode K V => decide (index C node.key = j))
      = (fun k => decide (index C k = j)) ∘ KVNode.key from rfl, ← List.filter_map,
    hb _ hi0, List.filter_filter]
  apply List.filter_congr
  intro k _
  by_cases hk : index C k = j
  · simp [hk, hidx k hk]
  · simp [hk]

omit [DecidableEq K] in
theorem Ordered.mem_iff {m : MyChainingHashMap K V} {order : List K} (hinv : Inv m)
    (ho : Ordered m order) (key : K) : key ∈ order ↔ key ∈ m.keys := by
  have hi : index m.table.length key < m.table.length := index_lt _ hinv.tableOK.pos _
  have hb := ho.buckets _ hi
  constructor
  · intro hk
    have : key ∈ order.filter (fun k => decide (index m.table.length k = index m.table.length key)) := by
      rw [List.mem_filter]; exact ⟨hk, by simp⟩
    rw [← hb] at this
    obtain ⟨node, hn, hkey⟩ := List.mem_map.1 this
    rw [keys_eq_map]
    exact List.mem_map.2 ⟨node, (bucket_sublist _ hi).subset hn, hkey⟩
  · intro hk
    rw [keys_eq_map] at hk
    obtain ⟨node, hn, hkey⟩ := List.mem_map.1 hk
    obtain ⟨_, hb'⟩ := hinv.tableOK.mem_bucket hn
    simp only [hkey] at hb'
    have : key ∈ m.table[index m.table.length key].map KVNode.key :=
      List.mem_map.2 ⟨node, hb', hkey⟩
    rw [hb] at this
    exact (List.mem_filter.1 this).1

omit [DecidableEq K] in
theorem Ordered.set_bucket {m : MyChainingHashMap K V} {order : List K} (ho : Ordered m order)
    {order' : List K} (hnd : order'.Nodup) (i : Nat) (x : List (KVNode K V)) (size' : Int)
    (hx : x.map KVNode.key = order'.filter (fun k => decide (index m.table.length k = i)))
    (hother : ∀ j, j ≠ i →
      order'.filter (fun k => decide (index m.table.length k = j))
        = order.filter (fun k => decide (index m.table.length k = j))) :
    Ordered ({ table := m.table.set i x, size_ := size' } : MyChainingHashMap K V) order' := by
  refine ⟨hnd, ?_⟩
  intro j hj
  simp only [List.length_set] at hj ⊢
  rw [List.getElem_set]
  by_cases hij : i = j
  · rw [if_pos hij, ← hij]; exact hx
  · rw [if_neg hij, hother j (Ne.symm hij)]
    exact ho.buckets j hj

omit [DecidableEq K] in
theorem Ordered.rebuild {m : MyChainingHashMap K V} {order : List K}
    (hok : TableOK m.table) (ho : Ordered m order) (C : Int) (hC : 1 ≤ C)
    (hdvd : m.table.length ∣ C.toNat)
    (hlen : (rehash C m.entries : MyChainingHashMap K V).table.length = C.toNat) :
    Ordered ({ m with table := (rehash C m.entries).table } : MyChainingHashMap K V) order := by
  refine ⟨ho.nodup, ?_⟩
  intro j hj
  have hj' : j < (rehash C m.entries : MyChainingHashMap K V).table.length := hj
  show ((rehash C m.entries : MyChainingHashMap K V).table[j]).map KVNode.key
    = order.filter (fun k => decide
        (index (rehash C m.entries : MyChainingHashMap K V).table.length k = j))
  rw [← getD_eq _ _ hj', rehash_bucket C hC m.entries j (by rw [← hlen]; exact hj'), hlen]
  exact ordered_rebuild hok ho.buckets C.toNat hdvd j

theorem Traced.reachable {keep : Bool} {m : MyChainingHashMap K V} {order : List K}
    (h : Traced keep m order) : Reachable m := by
  induction h with
  | construct c => exact Reachable.construct c
  | put fuel key val _ h ih => exact Reachable.put fuel key val ih h
  | remove fuel key _ h _ ih => exact Reachable.remove fuel key ih h

theorem Ordered.put {m m' : MyChainingHashMap K V} {order : List K} (hinv : Inv m)
    (ho : Ordered m order) {fuel : Nat} {key : K} {val : V}
    (h : putF fuel m key val = some m') :
    Ordered m' (if key ∈ order then order else order ++ [key]) := by
  have hok := hinv.tableOK
  have hi : m.hash key < m.table.length := index_lt _ hok.pos _
  cases hs : m.scan key with
  | some old =>
    obtain ⟨list, hl⟩ := assignFirst_isSome_of_scan val hs
    rw [putF_of_assign fuel m key val list hok.pos hl] at h
    cases h
    rw [if_pos ((ho.mem_iff hinv key).2 ((mem_keys_iff hok key).2 ⟨old, hs⟩))]
    refine Ordered.set_bucket ho ho.nodup (m.hash key) list m.size_ ?_ (fun _ _ => rfl)
    rw [assignFirst_keys hl, getD_eq _ _ hi]
    exact ho.buckets _ hi
  | none =>
    have hnot : key ∉ order := fun hk =>
      (not_mem_keys_iff hok key).2 hs ((ho.mem_iff hinv key).1 hk)
    rw [if_neg hnot]
    have hnd : (order ++ [key]).Nodup := by
      refine List.Nodup.append ho.nodup (List.nodup_singleton _) ?_
      intro k hk hk'
      rw [List.mem_singleton] at hk'
      exact hnot (hk' ▸ hk)
    have hoA : Ordered (m.appended key val) (order ++ [key]) := by
      refine Ordered.set_bucket ho hnd (m.hash key) _ (m.size_ + 1) ?_ ?_
      · rw [getD_eq _ _ hi, List.map_append, List.filter_append, ho.buckets _ hi]
        simp [hash_eq_index]
      · intro j hj
        rw [List.filter_append]
        have : [key].filter (fun k => decide (index m.table.length k = j)) = [] := by
          rw [List.filter_eq_nil_iff]
          intro k hk hq
          rw [List.mem_singleton] at hk
          subst hk
          exact hj (of_decide_eq_true hq).symm
        rw [this, List.append_nil]
    by_cases hg : 3 * (m.table.length : Int) ≤ 4 * (m.size_ + 1)
    · have hlt : m.table.length < 1073741824 := by
        by_contra hbig
        rw [putF_wrap_none fuel m key val hinv hs hg (by omega)] at h
        exact Option.noConfusion h
      rw [putF_of_absent fuel m key val hok.pos (assignFirst_eq_none_of_scan val hs),
        if_pos hg, toInt_double hlt] at h
      cases fuel with
      | zero => exact Option.noConfusion h
      | succ fuel =>
        have hokA := appended_tableOK hok hs val
        obtain ⟨hr, _, hlenT, _⟩ :=
          resizeF_spec fuel (m.appended key val) ((m.table.length * 2 : Nat) : Int)
            hokA.nodupKeys (appended_bound hinv val)
        rw [hr] at h
        cases h
        have hmax : (max ((m.table.length * 2 : Nat) : Int) 1).toNat = m.table.length * 2 := by
          rw [max_eq_left (by have := hok.pos; omega)]; omega
        refine Ordered.rebuild hokA hoA _ (le_max_right _ _) ?_ ?_
        · rw [appended_length, hmax]; exact Dvd.intro _ rfl
        · omega
    · rw [putF_of_absent fuel m key val hok.pos (assignFirst_eq_none_of_scan val hs),
        if_neg hg] at h
      cases h
      exact hoA

theorem Ordered.remove {m m' : MyChainingHashMap K V} {order : List K} (hinv : Inv m)
    (ho : Ordered m order) {fuel : Nat} {key : K} (h : removeF fuel m key = some m')
    (hkeep : m'.table.length = m.table.length) :
    Ordered m' (order.filter (fun k => decide (k ≠ key))) := by
  have hok := hinv.tableOK
  have hi : m.hash key < m.table.length := index_lt _ hok.pos _
  cases hs : m.scan key with
  | none =>
    rw [removeF_of_absent fuel m key hok.pos (eraseFirst_eq_none_of_scan hs)] at h
    cases h
    have hnot : key ∉ order := fun hk =>
      (not_mem_keys_iff hok key).2 hs ((ho.mem_iff hinv key).1 hk)
    have : order.filter (fun k => decide (k ≠ key)) = order := by
      rw [List.filter_eq_self]
      intro k hk
      have : k ≠ key := fun e => hnot (e ▸ hk)
      simpa using this
    rw [this]
    exact ho
  | some old =>
    obtain ⟨list, hl⟩ := eraseFirst_isSome_of_scan hs
    have hoE : Ordered (m.erased key list) (order.filter (fun k => decide (k ≠ key))) := by
      refine Ordered.set_bucket ho (ho.nodup.filter _) (m.hash key) list (m.size_ - 1) ?_ ?_
      · have hk := eraseFirst_keys hl (by
          rw [getD_eq _ _ hi]; exact hok.bucket_nodup _ hi)
        rw [hk, getD_eq _ _ hi, ho.buckets _ hi, List.filter_filter, List.filter_filter]
        apply List.filter_congr
        intro k _
        exact Bool.and_comm _ _
      · intro j hj
        rw [List.filter_filter]
        apply List.filter_congr
        intro k _
        by_cases hk : index m.table.length k = j
        · have : k ≠ key := by
            intro e; subst e; exact hj hk.symm
          simp [hk, this]
        · simp [hk]
    rw [removeF_of_erase fuel m key list hok.pos hl] at h
    by_cases hg : 0 ≤ m.size_ - 1 ∧ m.size_ - 1 ≤ ((m.table.length / 8 : Nat) : Int)
    · rw [if_pos hg] at h
      cases fuel with
      | zero => exact Option.noConfusion h
      | succ fuel =>
        obtain ⟨hokE, _⟩ := erased_facts hok (eraseFirst_perm hl)
        obtain ⟨hr, _, hlenT, _⟩ :=
          resizeF_spec fuel (m.erased key list) ((m.table.length / 4 : Nat) : Int)
            hokE.nodupKeys (erased_bound hinv hl hg.2)
        rw [hr] at h
        cases h
        have hkeep' : (rehash (max ((m.table.length / 4 : Nat) : Int) 1)
            (m.erased key list).entries : MyChainingHashMap K V).table.length
              = m.table.length := hkeep
        refine Ordered.rebuild hokE hoE _ (le_max_right _ _) ?_ ?_
        · rw [erased_length]
          have : (max ((m.table.length / 4 : Nat) : Int) 1).toNat = m.table.length := by
            omega
          rw [this]
        · omega
    · rw [if_neg hg] at h
      cases h
      exact hoE

theorem Traced.ordered {m : MyChainingHashMap K V} {order : List K}
    (h : Traced true m order) : Ordered m order := by
  induction h with
  | construct c =>
    refine ⟨List.nodup_nil, ?_⟩
    intro i hi
    simp [MyChainingHashMap.construct]
  | put fuel key val ht h ih => exact Ordered.put ht.reachable.inv ih h
  | remove fuel key ht h hkeep ih => exact Ordered.remove ht.reachable.inv ih h (hkeep rfl)

end Order

/-! ## A table filled up to the threshold of a grow -/

section Fill

theorem fillOps_succ (n : Nat) :
    fillOps (n + 1) = fillOps n ++ [Op.put (n : Int) (some (n : Int))] := by
  simp [fillOps, List.range_succ]

theorem fillOps_length (n : Nat) : (fillOps n).length = n := by
  unfold fillOps
  rw [List.length_map, List.length_range]

theorem filled_spec (fuel : Nat) (c : Int) (n : Nat) (hn : 4 * (n : Int) < 3 * max c 1) :
    run fuel (construct c) (fillOps n) = some (filled c n) ∧ Reachable (filled c n) ∧
      (filled c n).table.length = (max c 1).toNat ∧ (filled c n).size = n ∧
      ∀ node ∈ (filled c n).entries, ∃ i : Nat, i < n ∧ node.key = (i : Int) := by
  induction n with
  | zero =>
    refine ⟨rfl, Reachable.construct c, construct_length c, rfl, ?_⟩
    intro node hm
    have : (filled c 0).entries = [] := construct_entries c
    rw [this] at hm
    exact absurd hm (List.not_mem_nil _)
  | succ n ih =>
    push_cast at hn
    obtain ⟨hrun, hr, hlen, hsize, hkeys⟩ := ih (by omega)
    change (filled c n).size_ = n at hsize
    have hinv := hr.inv
    have hs : (filled c n).scan (n : Int) = none := by
      rw [scan_eq_none_iff hinv.tableOK]
      intro node hm hk
      obtain ⟨i, hi, hki⟩ := hkeys node hm
      rw [hki] at hk
      omega
    have h1 : (1 : Int) ≤ max c 1 := le_max_right _ _
    have hload : 4 * ((filled c n).size_ + 1) < 3 * ((filled c n).table.length : Int) := by
      rw [hsize, hlen, Int.toNat_of_nonneg (by omega)]
      omega
    have hput := putF_nogrow fuel hinv.tableOK.pos hs hload (some (n : Int))
    have hpost := putF_post hinv hput
    refine ⟨?_, Reachable.put fuel _ _ hr hput, ?_, ?_, ?_⟩
    · rw [fillOps_succ, run_append, hrun]
      show run fuel (filled c n) [Op.put (n : Int) (some (n : Int))] = _
      rw [run_cons]
      simp only [step]
      rw [hput]
      rfl
    · show ((filled c n).appended (n : Int) (some (n : Int))).table.length = _
      rw [appended_length, hlen]
    · show (filled c n).size_ + 1 = ((n + 1 : Nat) : Int)
      rw [hsize]
      push_cast
      rfl
    · intro node hm
      rcases (hpost.mem node).1 hm with h | ⟨h, _⟩
      · exact ⟨n, Nat.lt_succ_self n, by rw [h]⟩
      · obtain ⟨i, hi, hki⟩ := hkeys node h
        exact ⟨i, Nat.lt_succ_of_lt hi, hki⟩

theorem filled_put_wraps (fuel : Nat) (c : Int) (n : Nat) (hc : 1073741824 ≤ c)
    (hn : 4 * (n : Int) < 3 * c) (hg : 3 * c ≤ 4 * ((n : Int) + 1)) :
    (n : Int) ∉ (filled c n).keys ∧ putF fuel (filled c n) (n : Int) (some (n : Int)) = none := by
  have hmax : max c 1 = c := max_eq_left (by omega)
  obtain ⟨_, hr, hlen, hsize, hkeys⟩ := filled_spec 0 c n (by rw [hmax]; exact hn)
  change (filled c n).size_ = n at hsize
  have hinv := hr.inv
  have hs : (filled c n).scan (n : Int) = none := by
    rw [scan_eq_none_iff hinv.tableOK]
    intro node hm hk
    obtain ⟨i, hi, hki⟩ := hkeys node hm
    rw [hki] at hk
    omega
  refine ⟨(not_mem_keys_iff hinv.tableOK _).2 hs, ?_⟩
  rw [hmax] at hlen
  apply putF_wrap_none fuel _ _ _ hinv hs
  · rw [hsize, hlen, Int.toNat_of_nonneg (by omega)]
    exact hg
  · rw [hlen]
    omega

theorem run_fill_wraps (fuel : Nat) (c : Int) (n : Nat) (hc : 1073741824 ≤ c)
    (hn : 4 * (n : Int) < 3 * c) (hg : 3 * c ≤ 4 * ((n : Int) + 1)) :
    run fuel (construct c) (fillOps (n + 1)) = none := by
  have hmax : max c 1 = c := max_eq_left (by omega)
  obtain ⟨hrun, _⟩ := filled_spec fuel c n (by rw [hmax]; exact hn)
  rw [fillOps_succ, run_append, hrun]
  show run fuel (filled c n) [Op.put (n : Int) (some (n : Int))] = _
  rw [run_cons]
  simp only [step]
  rw [(filled_put_wraps fuel c n hc hn hg).2]
  rfl

theorem bigMap_eq : bigMap = filled 1073741824 805306367 := rfl

theorem bigMap_reached :
    run 1 (construct 1073741824) (fillOps 805306367) = some bigMap ∧ Reachable bigMap ∧
      bigMap.table.length = 1073741824 ∧ bigMap.size = 805306367 ∧
      (805306367 : Int) ∉ bigMap.keys := by
  obtain ⟨hrun, hr, hlen, hsize, _⟩ :=
    filled_spec 1 1073741824 805306367 (by norm_num)
  have hw := filled_put_wraps 0 1073741824 805306367 (by norm_num) (by norm_num) (by norm_num)
  rw [bigMap_eq]
  refine ⟨hrun, hr, ?_, ?_, hw.1⟩
  · rw [hlen]
    rfl
  · rw [hsize]
    rfl

theorem bigMap_put_none (fuel : Nat) :
    putF fuel bigMap 805306367 (some 805306367) = none := by
  rw [bigMap_eq]
  exact
    (filled_put_wraps fuel 1073741824 805306367 (by norm_num) (by norm_num) (by norm_num)).2

theorem bigOps_run_none (fuel : Nat) :
    run fuel (construct 1073741824) (fillOps 805306368) = none :=
  run_fill_wraps fuel 1073741824 805306367 (by norm_num) (by norm_num) (by norm_num)

theorem bigOps_run_some :
    ∃ m, run 1 (construct 2147483647) (fillOps 805306368) = some m :=
  ⟨_, (filled_spec 1 2147483647 805306368 (by norm_num)).1⟩

end Fill

/-! ## The states of `main` -/

section Main

theorem reachable_mainOne : Reachable mainOne :=
  Reachable.put 1 1 (some 1) (Reachable.construct INIT_CAP) (by decide)

theorem reachable_mainTwo : Reachable mainTwo :=
  Reachable.put 1 2 (some 2) reachable_mainOne (by decide)

theorem reachable_mainThree : Reachable mainThree :=
  Reachable.put 1 3 (some 3) reachable_mainTwo (by decide)

theorem reachable_mainUpdated : Reachable mainUpdated :=
  Reachable.put 0 1 (some 100) reachable_mainThree (by decide)

theorem reachable_mainRemoved : Reachable mainRemoved :=
  Reachable.remove 0 2 reachable_mainUpdated (by decide)

theorem reachable_mainShrunk : Reachable mainShrunk :=
  Reachable.remove 1 1 reachable_mainRemoved (by decide)

theorem reachable_mainEmpty : Reachable mainEmpty :=
  Reachable.remove 1 3 reachable_mainShrunk (by decide)

theorem Traced.put_eq {keep : Bool} {m m' : MyChainingHashMap K V} {order order' : List K}
    (fuel : Nat) (key : K) (val : V) (ht : Traced keep m order)
    (h : putF fuel m key val = some m')
    (ho : order' = if key ∈ order then order else order ++ [key]) : Traced keep m' order' := by
  rw [ho]
  exact Traced.put fuel key val ht h

theorem Traced.remove_eq {keep : Bool} {m m' : MyChainingHashMap K V} {order order' : List K}
    (fuel : Nat) (key : K) (ht : Traced keep m order) (h : removeF fuel m key = some m')
    (hkeep : keep = true → m'.table.length = m.table.length)
    (ho : order' = order.filter (fun k => decide (k ≠ key))) : Traced keep m' order' := by
  rw [ho]
  exact Traced.remove fuel key ht h hkeep

theorem traced_mainRemoved : Traced true mainRemoved [1, 3] := by
  have h0 : Traced true (constructDefault : MyChainingHashMap Int (Option Int)) [] :=
    Traced.construct INIT_CAP
  have h1 : Traced true mainOne [1] := Traced.put_eq 1 1 (some 1) h0 (by decide) (by decide)
  have h2 : Traced true mainTwo [1, 2] :=
    Traced.put_eq 1 2 (some 2) h1 (by decide) (by decide)
  have h3 : Traced true mainThree [1, 2, 3] :=
    Traced.put_eq 1 3 (some 3) h2 (by decide) (by decide)
  have h4 : Traced true mainUpdated [1, 2, 3] :=
    Traced.put_eq 1 1 (some 100) h3 (by decide) (by decide)
  exact Traced.remove_eq 1 2 h4 (by decide) (fun _ => by decide) (by decide)

theorem traced_orderShrunk : Traced false orderShrunk [5, 1] := by
  have h0 : Traced false (construct 16 : MyChainingHashMap Int (Option Int)) [] :=
    Traced.construct 16
  have h1 : Traced false orderA [5] := Traced.put_eq 1 5 (some 5) h0 (by decide) (by decide)
  have h2 : Traced false orderB [5, 1] :=
    Traced.put_eq 1 1 (some 1) h1 (by decide) (by decide)
  have h3 : Traced false orderC [5, 1, 2] :=
    Traced.put_eq 1 2 (some 2) h2 (by decide) (by decide)
  exact Traced.remove_eq 1 2 h3 (by decide) (fun h => Bool.noConfusion h) (by decide)

theorem reachable_wideOne : Reachable wideOne :=
  Reachable.put 1 1 (some 1) (Reachable.construct 32) (by decide)

end Main

/-! ## The contract -/

section Contract

/-- C1 (round trip): `get key` yields `val` on every state that a `put key
val` returns from a reachable state, grow and rehash included; the `put`
returns, one nested `resize` being enough, whenever the doubled table length
fits in `int` at a grow, that is below `2 ^ 30` buckets.  At the state `bigMap`
(`MyChainingHashMap(1 << 30)` after `805306367` insertions) the next insertion
requests the capacity `2 ^ 31`, which the `int` parameter of `resize` receives
as a negative number: that `put` returns for no depth of nesting, so no `get`
follows it. -/
theorem put_get_roundtrip [HasNullptr V] :
    (∀ m : MyChainingHashMap K V, Reachable m →
        ∀ (fuel : Nat) (key : K) (val : V) (m' : MyChainingHashMap K V),
        putF fuel m key val = some m' → m'.get key = val) ∧
      (∀ m : MyChainingHashMap K V, Reachable m → ∀ fuel, 1 ≤ fuel → ∀ (key : K) (val : V),
        (3 * (m.table.length : Int) ≤ 4 * (m.size + 1) → m.table.length < 1073741824) →
        ∃ m', putF fuel m key val = some m' ∧ m'.get key = val) ∧
      (run 1 (construct 1073741824) (fillOps 805306367) = some bigMap ∧ Reachable bigMap ∧
        bigMap.table.length = 1073741824 ∧ bigMap.size = 805306367 ∧
        (805306367 : Int) ∉ bigMap.keys ∧
        ∀ fuel, putF fuel bigMap 805306367 (some 805306367) = none) := by
  have hget : ∀ (m m' : MyChainingHashMap K V) (key : K) (val : V),
      PutPost m key val m' → m'.get key = val := by
    intro m m' key val hpost
    rw [get_of_scan (put_scan_self hpost)]
  refine ⟨?_, ?_, ?_⟩
  · intro m hr fuel key val m' h
    exact hget m m' key val (putF_post hr.inv h)
  · intro m hr fuel hfuel key val hfit
    obtain ⟨m', h, hpost⟩ := putF_returns hr.inv fuel hfuel key val hfit
    exact ⟨m', h, hget m m' key val hpost⟩
  · obtain ⟨h1, h2, h3, h4, h5⟩ := bigMap_reached
    exact ⟨h1, h2, h3, h4, h5, bigMap_put_none⟩

/-- The round trip at the third `put` of `main`, the one that grows the table
from four to eight buckets. -/
theorem put_get_roundtrip_witness :
    Reachable mainTwo ∧ 1 ≤ 1 ∧
      (3 * (mainTwo.table.length : Int) ≤ 4 * (mainTwo.size + 1) →
        mainTwo.table.length < 1073741824) ∧
      (∃ m', putF 1 mainTwo 3 (some 3) = some m' ∧ m'.get 3 = some 3) ∧
      putF 1 mainTwo 3 (some 3) = some mainThree ∧ mainThree.get 3 = some 3 :=
  ⟨reachable_mainTwo, le_refl 1, fun _ => by decide,
    (put_get_roundtrip (K := Int) (V := Option Int)).2.1 mainTwo reachable_mainTwo 1
      (le_refl 1) 3 (some 3) (fun _ => by decide),
    by decide,
    (put_get_roundtrip (K := Int) (V := Option Int)).1 mainTwo reachable_mainTwo 1 3 (some 3)
      mainThree (by decide)⟩

/-- C2 (frame): for keys `key ≠ key'`, every state that `put key val` or
`remove key` returns from a reachable state looks `key'` up as before: the scan
finds the same node (or none), `get key'` yields the same result and `key'`
occurs in `keys` as often as before, whether or not the table is rebuilt.
`remove` returns from every reachable state; `put` returns whenever the doubled
table length fits in `int` at a grow, that is below `2 ^ 30` buckets.  At the
state `bigMap` the insertion of the key `805306367` requests a capacity that the
`int` parameter of `resize` receives as a negative number, and that `put`
returns for no depth of nesting: there is no state after it in which the other
keys could be looked up. -/
theorem put_remove_frame [HasNullptr V] :
    (∀ m : MyChainingHashMap K V, Reachable m →
        ∀ (fuel : Nat) (key key' : K) (val : V) (m' : MyChainingHashMap K V), key ≠ key' →
        putF fuel m key val = some m' →
        m'.scan key' = m.scan key' ∧ m'.get key' = m.get key' ∧
          m'.keys.count key' = m.keys.count key') ∧
      (∀ m : MyChainingHashMap K V, Reachable m → ∀ fuel, 1 ≤ fuel →
        ∀ (key key' : K) (val : V), key ≠ key' →
        (3 * (m.table.length : Int) ≤ 4 * (m.size + 1) → m.table.length < 1073741824) →
        ∃ m', putF fuel m key val = some m' ∧ m'.scan key' = m.scan key' ∧
          m'.get key' = m.get key' ∧ m'.keys.count key' = m.keys.count key') ∧
      (∀ m : MyChainingHashMap K V, Reachable m → ∀ fuel, 1 ≤ fuel →
        ∀ (key key' : K), key ≠ key' →
        ∃ m', removeF fuel m key = some m' ∧ m'.scan key' = m.scan key' ∧
          m'.get key' = m.get key' ∧ m'.keys.count key' = m.keys.count key') ∧
      (Reachable bigMap ∧ bigMap.table.length = 1073741824 ∧ bigMap.size = 805306367 ∧
        ∀ fuel, putF fuel bigMap 805306367 (some 805306367) = none) := by
  have hput : ∀ (m m' : MyChainingHashMap K V) (key key' : K) (val : V), Inv m →
      key ≠ key' → PutPost m key val m' →
      m'.scan key' = m.scan key' ∧ m'.get key' = m.get key' ∧
        m'.keys.count key' = m.keys.count key' := by
    intro m m' key key' val hinv hne hpost
    have hs := put_frame hinv hpost hne
    refine ⟨hs, ?_, ?_⟩
    · simp only [get, hs]
    · rw [count_keys hpost.inv.tableOK, count_keys hinv.tableOK, hs]
  refine ⟨?_, ?_, ?_, ?_⟩
  · intro m hr fuel key key' val m' hne h
    exact hput m m' key key' val hr.inv hne (putF_post hr.inv h)
  · intro m hr fuel hfuel key key' val hne hfit
    obtain ⟨m', h, hpost⟩ := putF_returns hr.inv fuel hfuel key val hfit
    exact ⟨m', h, hput m m' key key' val hr.inv hne hpost⟩
  · intro m hr fuel hfuel key key' hne
    have hinv := hr.inv
    obtain ⟨m', h, hpost⟩ := removeF_returns hinv fuel hfuel key
    have hs := remove_frame hinv hpost hne
    refine ⟨m', h, hs, ?_, ?_⟩
    · simp only [get, hs]
    · rw [count_keys hpost.inv.tableOK, count_keys hinv.tableOK, hs]
  · obtain ⟨_, h2, h3, h4, _⟩ := bigMap_reached
    exact ⟨h2, h3, h4, bigMap_put_none⟩

/-- The frame at the growing third `put` of `main`, observed at the stored key
`1`, and at the second `remove(1)` of `main`, which erases a stored key and
shrinks the table from eight buckets to two, observed at the stored key `3`. -/
theorem put_remove_frame_witness :
    Reachable mainTwo ∧ 1 ≤ 1 ∧ (3 : Int) ≠ 1 ∧
      (3 * (mainTwo.table.length : Int) ≤ 4 * (mainTwo.size + 1) →
        mainTwo.table.length < 1073741824) ∧
      (∃ m', putF 1 mainTwo 3 (some 3) = some m' ∧ m'.scan 1 = mainTwo.scan 1 ∧
        m'.get 1 = mainTwo.get 1 ∧ m'.keys.count 1 = mainTwo.keys.count 1) ∧
      mainTwo.get 1 = some 1 ∧
      Reachable mainRemoved ∧ (1 : Int) ≠ 3 ∧ (1 : Int) ∈ mainRemoved.keys ∧
      (∃ m', removeF 1 mainRemoved 1 = some m' ∧ m'.scan 3 = mainRemoved.scan 3 ∧
        m'.get 3 = mainRemoved.get 3 ∧ m'.keys.count 3 = mainRemoved.keys.count 3) ∧
      mainRemoved.get 3 = some 3 ∧
      putF 1 mainTwo 3 (some 3) = some mainThree ∧
      (mainThree.scan 1 = mainTwo.scan 1 ∧ mainThree.get 1 = mainTwo.get 1 ∧
        mainThree.keys.count 1 = mainTwo.keys.count 1) :=
  ⟨reachable_mainTwo, le_refl 1, by decide, fun _ => by decide,
    (put_remove_frame (K := Int) (V := Option Int)).2.1 mainTwo reachable_mainTwo 1
      (le_refl 1) 3 1 (some 3) (by decide) (fun _ => by decide),
    by decide, reachable_mainRemoved, by decide, by decide,
    (put_remove_frame (K := Int) (V := Option Int)).2.2.1 mainRemoved reachable_mainRemoved 1
      (le_refl 1) 1 3 (by decide),
    by decide, by decide,
    (put_remove_frame (K := Int) (V := Option Int)).1 mainTwo reachable_mainTwo 1 3 1 (some 3)
      mainThree (by decide) (by decide)⟩

/-- C3 (update): from every reachable state that stores `key`, `put key val`
returns without any resize (no fuel is needed), leaves `size` and the table
length unchanged, and `get key` on the result yields `val`. -/
theorem put_update [HasNullptr V] {m : MyChainingHashMap K V} (hr : Reachable m)
    (fuel : Nat) (key : K) (val : V) (hstored : key ∈ m.keys) :
    ∃ m', putF fuel m key val = some m' ∧ m'.size = m.size ∧
      m'.table.length = m.table.length ∧ m'.get key = val := by
  have hinv := hr.inv
  obtain ⟨old, hs⟩ := (mem_keys_iff hinv.tableOK key).1 hstored
  obtain ⟨m', h, hpost⟩ := putF_update_returns hinv fuel key val hs
  obtain ⟨h1, h2⟩ := hpost.stored old hs
  refine ⟨m', h, h1, h2, ?_⟩
  rw [get_of_scan (put_scan_self hpost)]

/-- The update `put(1, 100)` of `main`, with no fuel for a resize. -/
theorem put_update_witness :
    Reachable mainThree ∧ (1 : Int) ∈ mainThree.keys ∧
      ∃ m', putF 0 mainThree 1 (some 100) = some m' ∧ m'.size = mainThree.size ∧
        m'.table.length = mainThree.table.length ∧ m'.get 1 = some 100 :=
  ⟨reachable_mainThree, by decide,
    put_update reachable_mainThree 0 1 (some 100) (by decide)⟩

/-- C4 (absence): `get` yields `nullptr` for every key on a freshly constructed
map, whatever the capacity, and from every reachable state `remove key` returns
and `get key` on the result yields `nullptr`, also when the removal shrinks the
table. -/
theorem get_absent [HasNullptr V] :
    (∀ (initCapacity : Int) (key : K),
        (construct initCapacity : MyChainingHashMap K V).get key = HasNullptr.nullptr) ∧
      (∀ key : K, (constructDefault : MyChainingHashMap K V).get key = HasNullptr.nullptr) ∧
      ∀ m : MyChainingHashMap K V, Reachable m → ∀ fuel, 1 ≤ fuel → ∀ key : K,
        ∃ m', removeF fuel m key = some m' ∧ m'.get key = HasNullptr.nullptr := by
  have hnew : ∀ (c : Int) (key : K),
      (construct c : MyChainingHashMap K V).get key = HasNullptr.nullptr := by
    intro c key
    apply get_of_absent
    rw [scan_eq_none_iff (construct_tableOK c), construct_entries]
    intro node hn
    exact absurd hn (List.not_mem_nil _)
  refine ⟨hnew, fun key => hnew INIT_CAP key, ?_⟩
  intro m hr fuel hfuel key
  obtain ⟨m', h, hpost⟩ := removeF_returns hr.inv fuel hfuel key
  exact ⟨m', h, get_of_absent (remove_scan_self hpost)⟩

/-- The absence after the second `remove(1)` of `main`, the removal that
shrinks the table from eight buckets to two. -/
theorem get_absent_witness :
    Reachable mainRemoved ∧ 1 ≤ 1 ∧
      ∃ m', removeF 1 mainRemoved 1 = some m' ∧ m'.get 1 = none :=
  ⟨reachable_mainRemoved, le_refl 1,
    (get_absent (K := Int) (V := Option Int)).2.2 mainRemoved reachable_mainRemoved 1
      (le_refl 1) 1⟩

/-- C5 (removal of a missing key): from every reachable state that does not
store `key`, `remove key` returns the very same state (same table, same count)
without any resize, no fuel being needed and whatever the load, and a second
`remove key` changes nothing either; with fuel for one resize the second of two
`remove key` is a no-op for every key. -/
theorem remove_absent_noop {m : MyChainingHashMap K V} (hr : Reachable m) (fuel : Nat)
    (key : K) :
    (key ∉ m.keys → removeF fuel m key = some m ∧
        (removeF fuel m key).bind (fun m' => removeF fuel m' key) = removeF fuel m key) ∧
      (1 ≤ fuel → ∃ m', removeF fuel m key = some m' ∧ removeF fuel m' key = some m') := by
  have hinv := hr.inv
  constructor
  · intro habs
    have hs := (not_mem_keys_iff hinv.tableOK key).1 habs
    have h := removeF_of_absent fuel m key hinv.tableOK.pos (eraseFirst_eq_none_of_scan hs)
    refine ⟨h, ?_⟩
    rw [h]
    exact h
  · intro hfuel
    obtain ⟨m', h, hpost⟩ := removeF_returns hinv fuel hfuel key
    exact ⟨m', h, removeF_of_absent fuel m' key hpost.inv.tableOK.pos
      (eraseFirst_eq_none_of_scan (remove_scan_self hpost))⟩

/-- The removal of the missing key `5` from an empty table of eight buckets:
the count `0` is below `8 / 8` and the table keeps its eight buckets. -/
theorem remove_absent_noop_witness :
    Reachable (construct 8 : MyChainingHashMap Int (Option Int)) ∧
      (5 : Int) ∉ (construct 8 : MyChainingHashMap Int (Option Int)).keys ∧
      (removeF 0 (construct 8 : MyChainingHashMap Int (Option Int)) 5 = some (construct 8) ∧
        (removeF 0 (construct 8 : MyChainingHashMap Int (Option Int)) 5).bind
            (fun m' => removeF 0 m' 5)
          = removeF 0 (construct 8 : MyChainingHashMap Int (Option Int)) 5) ∧
      1 ≤ 1 ∧
      ∃ m', removeF 1 mainRemoved 1 = some m' ∧ removeF 1 m' 1 = some m' :=
  ⟨Reachable.construct 8, by decide,
    (remove_absent_noop (Reachable.construct 8) 0 5).1 (by decide), le_refl 1,
    (remove_absent_noop reachable_mainRemoved 1 1).2 (le_refl 1)⟩

/-- C6 (cardinality): in every reachable state `size` is the total number of
nodes over all buckets and the length of `keys`, and `keys` has no duplicate;
a returning `resize` leaves the count of any state unchanged. -/
theorem cardinality {m : MyChainingHashMap K V} (hr : Reachable m) :
    m.size = ((m.table.map List.length).sum : Nat) ∧ m.size = (m.keys.length : Nat) ∧
      m.keys.Nodup ∧
      ∀ (s : MyChainingHashMap K V) (fuel : Nat) (newCap : Int) (s' : MyChainingHashMap K V),
        resizeF fuel s newCap = some s' → s'.size = s.size := by
  have hinv := hr.inv
  refine ⟨?_, ?_, ?_, ?_⟩
  · rw [← List.length_flatten]; exact hinv.count
  · rw [keys_eq_map, List.length_map]; exact hinv.count
  · rw [keys_eq_map]; exact hinv.tableOK.nodupKeys
  · intro s fuel newCap s' h
    cases fuel with
    | zero => exact Option.noConfusion h
    | succ fuel =>
      simp only [resizeF, resizeWith, Option.map_eq_some'] at h
      obtain ⟨nm, _, rfl⟩ := h
      rfl

/-- The cardinality of the map of `main` after its three insertions, and the
count left by a `resize` of that map to sixteen buckets. -/
theorem cardinality_witness :
    Reachable mainThree ∧
      mainThree.size = ((mainThree.table.map List.length).sum : Nat) ∧
      mainThree.size = (mainThree.keys.length : Nat) ∧ mainThree.keys.Nodup ∧
      ∃ s', resizeF 1 mainThree 16 = some s' ∧ s'.size = mainThree.size :=
  ⟨reachable_mainThree, (cardinality reachable_mainThree).1,
    (cardinality reachable_mainThree).2.1, (cardinality reachable_mainThree).2.2.1,
    (resizeF 1 mainThree 16).get (by decide), (Option.some_get _).symm,
    (cardinality reachable_mainThree).2.2.2 mainThree 1 16 _ (Option.some_get _).symm⟩

/-- C7 (size accounting): every state that `put` of a key that is not stored
returns from a reachable state has a `size` one more, and `remove` of a stored
key returns, from every reachable state, a state whose `size` is one less,
whether or not the table is rebuilt.  The `put` returns whenever the doubled
table length fits in `int` at a grow, that is below `2 ^ 30` buckets.  At the
state `bigMap` the insertion of the key `805306367`, which is not stored,
requests a capacity that the `int` parameter of `resize` receives as a negative
number, and that `put` returns for no depth of nesting: no state of `size`
`805306368` follows. -/
theorem size_accounting :
    (∀ m : MyChainingHashMap K V, Reachable m →
        ∀ (fuel : Nat) (key : K) (val : V) (m' : MyChainingHashMap K V), key ∉ m.keys →
        putF fuel m key val = some m' → m'.size = m.size + 1) ∧
      (∀ m : MyChainingHashMap K V, Reachable m → ∀ fuel, 1 ≤ fuel → ∀ (key : K) (val : V),
        key ∉ m.keys →
        (3 * (m.table.length : Int) ≤ 4 * (m.size + 1) → m.table.length < 1073741824) →
        ∃ m', putF fuel m key val = some m' ∧ m'.size = m.size + 1) ∧
      (∀ m : MyChainingHashMap K V, Reachable m → ∀ fuel, 1 ≤ fuel → ∀ key : K,
        key ∈ m.keys → ∃ m', removeF fuel m key = some m' ∧ m'.size = m.size - 1) ∧
      (Reachable bigMap ∧ bigMap.table.length = 1073741824 ∧ bigMap.size = 805306367 ∧
        (805306367 : Int) ∉ bigMap.keys ∧
        ∀ fuel, putF fuel bigMap 805306367 (some 805306367) = none) := by
  refine ⟨?_, ?_, ?_, ?_⟩
  · intro m hr fuel key val m' habs h
    have hs := (not_mem_keys_iff hr.inv.tableOK key).1 habs
    exact ((putF_post hr.inv h).absent hs).1
  · intro m hr fuel hfuel key val habs hfit
    have hs := (not_mem_keys_iff hr.inv.tableOK key).1 habs
    obtain ⟨m', h, hpost⟩ := putF_returns hr.inv fuel hfuel key val hfit
    exact ⟨m', h, (hpost.absent hs).1⟩
  · intro m hr fuel hfuel key hstored
    obtain ⟨old, hs⟩ := (mem_keys_iff hr.inv.tableOK key).1 hstored
    obtain ⟨m', h, hpost⟩ := removeF_returns hr.inv fuel hfuel key
    exact ⟨m', h, (hpost.stored old hs).1⟩
  · obtain ⟨_, h2, h3, h4, h5⟩ := bigMap_reached
    exact ⟨h2, h3, h4, h5, bigMap_put_none⟩

/-- The accounting at the growing `put(3, 3)` of `main` and at its shrinking
second `remove(1)`. -/
theorem size_accounting_witness :
    Reachable mainTwo ∧ Reachable mainRemoved ∧ 1 ≤ 1 ∧ (3 : Int) ∉ mainTwo.keys ∧
      (1 : Int) ∈ mainRemoved.keys ∧
      (3 * (mainTwo.table.length : Int) ≤ 4 * (mainTwo.size + 1) →
        mainTwo.table.length < 1073741824) ∧
      (∃ m', putF 1 mainTwo 3 (some 3) = some m' ∧ m'.size = mainTwo.size + 1) ∧
      (∃ m', removeF 1 mainRemoved 1 = some m' ∧ m'.size = mainRemoved.size - 1) ∧
      putF 1 mainTwo 3 (some 3) = some mainThree ∧ mainThree.size = mainTwo.size + 1 :=
  ⟨reachable_mainTwo, reachable_mainRemoved, le_refl 1, by decide, by decide,
    fun _ => by decide,
    (size_accounting (K := Int) (V := Option Int)).2.1 mainTwo reachable_mainTwo 1 (le_refl 1)
      3 (some 3) (by decide) (fun _ => by decide),
    (size_accounting (K := Int) (V := Option Int)).2.2.1 mainRemoved reachable_mainRemoved 1
      (le_refl 1) 1 (by decide),
    by decide,
    (size_accounting (K := Int) (V := Option Int)).1 mainTwo reachable_mainTwo 1 3 (some 3)
      mainThree (by decide) (by decide)⟩

/-- C8 (enumeration): `keys` is the concatenation, in bucket order, of the keys
of each bucket in the order of the bucket, and in every reachable state a key
occurs in `keys` exactly when the scan of `get` finds a node for it. -/
theorem keys_enumerates :
    (∀ m : MyChainingHashMap K V,
        m.keys = (m.table.map (fun list => list.map KVNode.key)).flatten) ∧
      ∀ m : MyChainingHashMap K V, Reachable m → ∀ key : K,
        (key ∈ m.keys ↔ ∃ node, m.scan key = some node ∧ node.key = key) := by
  refine ⟨keys_eq_flatten, ?_⟩
  intro m hr key
  rw [mem_keys_iff hr.inv.tableOK]
  constructor
  · rintro ⟨node, hs⟩
    exact ⟨node, hs, ((scan_eq_some_iff hr.inv.tableOK key node).1 hs).2⟩
  · rintro ⟨node, hs, _⟩
    exact ⟨node, hs⟩

/-- The enumeration of the map of `main` after `remove(2)`, at the stored key
`3`. -/
theorem keys_enumerates_witness :
    Reachable mainRemoved ∧
      mainRemoved.keys = (mainRemoved.table.map (fun list => list.map KVNode.key)).flatten ∧
      ((3 : Int) ∈ mainRemoved.keys ↔
        ∃ node, mainRemoved.scan 3 = some node ∧ node.key = 3) :=
  ⟨reachable_mainRemoved, (keys_enumerates (K := Int) (V := Option Int)).1 mainRemoved,
    (keys_enumerates (K := Int) (V := Option Int)).2 mainRemoved reachable_mainRemoved 3⟩

/-- C9 (grow): from every reachable state with `L` buckets, `put` of a key
that is not stored returns, whenever `2 * L` fits in `int` at a grow (that is
`L < 2 ^ 30`), a state with one more pair whose table has `2 * L` buckets when
the new count `n` satisfies `3 * L ≤ 4 * n`, and `L` buckets otherwise; every
state such a `put` returns has this table length.  On the default map the first
two insertions of distinct keys keep the four buckets, the third one leaves
eight buckets, and the three keys are retrievable afterwards.  At the state
`bigMap`, with `L = 2 ^ 30` buckets and `805306367` pairs, the insertion of a
new key reaches the threshold (`3 * L ≤ 4 * 805306368`) and calls
`resize(table.size() * 2)`: the product `2 ^ 31` is converted to the `int`
`-2 ^ 31` and clamped to `1`, and the `put` returns for no depth of nesting, so
no table of `2 * L` buckets is left. -/
theorem put_grow [HasNullptr V] :
    (∀ m : MyChainingHashMap K V, Reachable m →
        ∀ (fuel : Nat) (key : K) (val : V) (m' : MyChainingHashMap K V), key ∉ m.keys →
        putF fuel m key val = some m' →
        m'.size = m.size + 1 ∧
          m'.table.length =
            if 3 * (m.table.length : Int) ≤ 4 * m'.size then 2 * m.table.length
            else m.table.length) ∧
      (∀ m : MyChainingHashMap K V, Reachable m → ∀ fuel, 1 ≤ fuel → ∀ (key : K) (val : V),
        key ∉ m.keys →
        (3 * (m.table.length : Int) ≤ 4 * (m.size + 1) → m.table.length < 1073741824) →
        ∃ m', putF fuel m key val = some m' ∧ m'.size = m.size + 1 ∧
          m'.table.length =
            if 3 * (m.table.length : Int) ≤ 4 * m'.size then 2 * m.table.length
            else m.table.length) ∧
      (∀ fuel, 1 ≤ fuel → ∀ (k1 k2 k3 : K) (v1 v2 v3 : V), k1 ≠ k2 → k1 ≠ k3 → k2 ≠ k3 →
        ∃ m1 m2 m3 : MyChainingHashMap K V,
          putF fuel constructDefault k1 v1 = some m1 ∧ putF fuel m1 k2 v2 = some m2 ∧
          putF fuel m2 k3 v3 = some m3 ∧
          (constructDefault : MyChainingHashMap K V).table.length = 4 ∧
          m1.table.length = 4 ∧ m2.table.length = 4 ∧ m3.table.length = 8 ∧
          m3.get k1 = v1 ∧ m3.get k2 = v2 ∧ m3.get k3 = v3) ∧
      (run 1 (construct 1073741824) (fillOps 805306367) = some bigMap ∧ Reachable bigMap ∧
        bigMap.table.length = 1073741824 ∧ bigMap.size = 805306367 ∧
        (805306367 : Int) ∉ bigMap.keys ∧
        3 * (bigMap.table.length : Int) ≤ 4 * (bigMap.size + 1) ∧
        toInt (sizeMul bigMap.table.length 2) = -2147483648 ∧
        ∀ fuel, putF fuel bigMap 805306367 (some 805306367) = none) := by
  have hlen : ∀ (m m' : MyChainingHashMap K V) (key : K) (val : V),
      m.scan key = none → PutPost m key val m' →
      m'.size = m.size + 1 ∧
        m'.table.length =
          if 3 * (m.table.length : Int) ≤ 4 * m'.size then 2 * m.table.length
          else m.table.length := by
    intro m m' key val hs hpost
    obtain ⟨h1, h2⟩ := hpost.absent hs
    refine ⟨h1, ?_⟩
    simp only [size, h1, h2, Nat.mul_comm]
  refine ⟨?_, ?_, ?_, ?_⟩
  · intro m hr fuel key val m' habs h
    exact hlen m m' key val ((not_mem_keys_iff hr.inv.tableOK key).1 habs) (putF_post hr.inv h)
  · intro m hr fuel hfuel key val habs hfit
    obtain ⟨m', h, hpost⟩ := putF_returns hr.inv fuel hfuel key val hfit
    exact ⟨m', h, hlen m m' key val ((not_mem_keys_iff hr.inv.tableOK key).1 habs) hpost⟩
  · intro fuel hfuel k1 k2 k3 v1 v2 v3 h12 h13 h23
    have hinv0 : Inv (constructDefault : MyChainingHashMap K V) := construct_inv INIT_CAP
    have hlen0 : (constructDefault : MyChainingHashMap K V).table.length = 4 := rfl
    have hsize0 : (constructDefault : MyChainingHashMap K V).size_ = 0 := rfl
    have hscan0 : ∀ key : K, (constructDefault : MyChainingHashMap K V).scan key = none := by
      intro key
      rw [scan_eq_none_iff hinv0.tableOK]
      intro node hn
      rw [constructDefault, construct_entries] at hn
      exact absurd hn (List.not_mem_nil _)
    obtain ⟨m1, e1, p1⟩ := putF_returns hinv0 fuel hfuel k1 v1 (fun _ => by rw [hlen0]; omega)
    obtain ⟨s1, l1⟩ := p1.absent (hscan0 k1)
    simp only [hlen0, hsize0] at s1 l1
    rw [if_neg (by norm_num)] at l1
    have hs12 : m1.scan k2 = none := (put_frame hinv0 p1 h12).trans (hscan0 k2)
    have hs13 : m1.scan k3 = none := (put_frame hinv0 p1 h13).trans (hscan0 k3)
    obtain ⟨m2, e2, p2⟩ := putF_returns p1.inv fuel hfuel k2 v2 (fun _ => by rw [l1]; omega)
    obtain ⟨s2, l2⟩ := p2.absent hs12
    simp only [l1, s1] at s2 l2
    rw [if_neg (by norm_num)] at l2
    have hs23 : m2.scan k3 = none := (put_frame p1.inv p2 h23).trans hs13
    obtain ⟨m3, e3, p3⟩ := putF_returns p2.inv fuel hfuel k3 v3 (fun _ => by rw [l2]; omega)
    obtain ⟨s3, l3⟩ := p3.absent hs23
    simp only [l2, s2] at s3 l3
    rw [if_pos (by norm_num)] at l3
    refine ⟨m1, m2, m3, e1, e2, e3, hlen0, l1, l2, l3, ?_, ?_, ?_⟩
    · have : m3.scan k1 = some ⟨k1, v1⟩ :=
        (put_frame p2.inv p3 (Ne.symm h13)).trans
          ((put_frame p1.inv p2 (Ne.symm h12)).trans (put_scan_self p1))
      rw [get_of_scan this]
    · have : m3.scan k2 = some ⟨k2, v2⟩ :=
        (put_frame p2.inv p3 (Ne.symm h23)).trans (put_scan_self p2)
      rw [get_of_scan this]
    · rw [get_of_scan (put_scan_self p3)]
  · obtain ⟨h1, h2, h3, h4, h5⟩ := bigMap_reached
    refine ⟨h1, h2, h3, h4, h5, ?_, ?_, bigMap_put_none⟩
    · rw [h3, h4]
      norm_num
    · rw [h3]
      decide

/-- The grow at the third insertion of `main`: three pairs, eight buckets; and
the three insertions of `main` from the default map. -/
theorem put_grow_witness :
    Reachable mainTwo ∧ 1 ≤ 1 ∧ (3 : Int) ∉ mainTwo.keys ∧
      (3 * (mainTwo.table.length : Int) ≤ 4 * (mainTwo.size + 1) →
        mainTwo.table.length < 1073741824) ∧
      (∃ m', putF 1 mainTwo 3 (some 3) = some m' ∧ m'.size = mainTwo.size + 1 ∧
        m'.table.length =
          if 3 * (mainTwo.table.length : Int) ≤ 4 * m'.size then 2 * mainTwo.table.length
          else mainTwo.table.length) ∧
      putF 1 mainTwo 3 (some 3) = some mainThree ∧
      (mainThree.size = mainTwo.size + 1 ∧
        mainThree.table.length =
          if 3 * (mainTwo.table.length : Int) ≤ 4 * mainThree.size then
            2 * mainTwo.table.length
          else mainTwo.table.length) ∧
      (1 : Int) ≠ 2 ∧ (1 : Int) ≠ 3 ∧ (2 : Int) ≠ 3 ∧
      ∃ m1 m2 m3 : MyChainingHashMap Int (Option Int),
        putF 1 constructDefault 1 (some 1) = some m1 ∧ putF 1 m1 2 (some 2) = some m2 ∧
        putF 1 m2 3 (some 3) = some m3 ∧
        (constructDefault : MyChainingHashMap Int (Option Int)).table.length = 4 ∧
        m1.table.length = 4 ∧ m2.table.length = 4 ∧ m3.table.length = 8 ∧
        m3.get 1 = some 1 ∧ m3.get 2 = some 2 ∧ m3.get 3 = some 3 :=
  ⟨reachable_mainTwo, le_refl 1, by decide, fun _ => by decide,
    (put_grow (K := Int) (V := Option Int)).2.1 mainTwo reachable_mainTwo 1 (le_refl 1) 3
      (some 3) (by decide) (fun _ => by decide),
    by decide,
    (put_grow (K := Int) (V := Option Int)).1 mainTwo reachable_mainTwo 1 3 (some 3)
      mainThree (by decide) (by decide),
    by decide, by decide, by decide,
    (put_grow (K := Int) (V := Option Int)).2.2.1 1 (le_refl 1) 1 2 3 (some 1) (some 2)
      (some 3) (by decide) (by decide) (by decide)⟩

/-- C10 (shrink): from every reachable state with `L` buckets, `remove` of a
stored key returns a state with one pair less whose table has
`max (L / 4) 1` buckets when the new count `n` satisfies `n ≤ L / 8`, and `L`
buckets otherwise.  From a reachable state with eight buckets and three pairs,
removing two of the keys leaves one pair in two buckets, and the third key is
looked up as before and still enumerated. -/
theorem remove_shrink [HasNullptr V] :
    (∀ m : MyChainingHashMap K V, Reachable m → ∀ fuel, 1 ≤ fuel → ∀ key : K,
        key ∈ m.keys →
        ∃ m', removeF fuel m key = some m' ∧ m'.size = m.size - 1 ∧
          m'.table.length =
            if m'.size ≤ ((m.table.length / 8 : Nat) : Int) then max (m.table.length / 4) 1
            else m.table.length) ∧
      ∀ m : MyChainingHashMap K V, Reachable m → m.table.length = 8 → m.size = 3 →
        ∀ fuel, 1 ≤ fuel → ∀ k1 k2 k3 : K, k1 ≠ k2 → k1 ≠ k3 → k2 ≠ k3 →
        k1 ∈ m.keys → k2 ∈ m.keys → k3 ∈ m.keys →
        ∃ m1 m2 : MyChainingHashMap K V,
          removeF fuel m k1 = some m1 ∧ removeF fuel m1 k2 = some m2 ∧
          m1.table.length = 8 ∧ m2.size = 1 ∧ m2.table.length = 2 ∧
          k3 ∈ m2.keys ∧ m2.get k3 = m.get k3 := by
  constructor
  · intro m hr fuel hfuel key hstored
    have hinv := hr.inv
    obtain ⟨old, hs⟩ := (mem_keys_iff hinv.tableOK key).1 hstored
    obtain ⟨m', h, hpost⟩ := removeF_returns hinv fuel hfuel key
    obtain ⟨h1, h2⟩ := hpost.stored old hs
    refine ⟨m', h, h1, ?_⟩
    simp only [size, h1, h2]
  · intro m hr hlen hsize fuel hfuel k1 k2 k3 h12 h13 h23 hk1 hk2 hk3
    have hinv := hr.inv
    change m.size_ = 3 at hsize
    obtain ⟨o1, hs1⟩ := (mem_keys_iff hinv.tableOK k1).1 hk1
    obtain ⟨o2, hs2⟩ := (mem_keys_iff hinv.tableOK k2).1 hk2
    obtain ⟨o3, hs3⟩ := (mem_keys_iff hinv.tableOK k3).1 hk3
    obtain ⟨m1, e1, p1⟩ := removeF_returns hinv fuel hfuel k1
    obtain ⟨s1, l1⟩ := p1.stored o1 hs1
    simp only [hlen, hsize] at s1 l1
    rw [if_neg (by norm_num)] at l1
    have hs12 : m1.scan k2 = some o2 := (remove_frame hinv p1 h12).trans hs2
    have hs13 : m1.scan k3 = m.scan k3 := remove_frame hinv p1 h13
    obtain ⟨m2, e2, p2⟩ := removeF_returns p1.inv fuel hfuel k2
    obtain ⟨s2, l2⟩ := p2.stored o2 hs12
    simp only [l1, s1] at s2 l2
    rw [if_pos (by norm_num)] at l2
    have hs23 : m2.scan k3 = m.scan k3 := (remove_frame p1.inv p2 h23).trans hs13
    refine ⟨m1, m2, e1, e2, l1, ?_, ?_, ?_, ?_⟩
    · show m2.size_ = 1
      rw [s2]; norm_num
    · rw [l2]; rfl
    · exact (mem_keys_iff p2.inv.tableOK k3).2 ⟨o3, hs23.trans hs3⟩
    · simp only [get, hs23]

/-- The shrink at the second `remove(1)` of `main`: one pair, two buckets; and
the removals of `2` and `1` from the map of `main` with its three pairs. -/
theorem remove_shrink_witness :
    Reachable mainRemoved ∧ 1 ≤ 1 ∧ (1 : Int) ∈ mainRemoved.keys ∧
      (∃ m', removeF 1 mainRemoved 1 = some m' ∧ m'.size = mainRemoved.size - 1 ∧
        m'.table.length =
          if m'.size ≤ ((mainRemoved.table.length / 8 : Nat) : Int) then
            max (mainRemoved.table.length / 4) 1
          else mainRemoved.table.length) ∧
      Reachable mainUpdated ∧ mainUpdated.table.length = 8 ∧ mainUpdated.size = 3 ∧
      (2 : Int) ≠ 1 ∧ (2 : Int) ≠ 3 ∧ (1 : Int) ≠ 3 ∧
      (2 : Int) ∈ mainUpdated.keys ∧ (1 : Int) ∈ mainUpdated.keys ∧
      (3 : Int) ∈ mainUpdated.keys ∧
      ∃ m1 m2 : MyChainingHashMap Int (Option Int),
        removeF 1 mainUpdated 2 = some m1 ∧ removeF 1 m1 1 = some m2 ∧
        m1.table.length = 8 ∧ m2.size = 1 ∧ m2.table.length = 2 ∧
        (3 : Int) ∈ m2.keys ∧ m2.get 3 = mainUpdated.get 3 :=
  ⟨reachable_mainRemoved, le_refl 1, by decide,
    (remove_shrink (K := Int) (V := Option Int)).1 mainRemoved reachable_mainRemoved 1
      (le_refl 1) 1 (by decide),
    reachable_mainUpdated, rfl, rfl, by decide, by decide, by decide, by decide, by decide,
    by decide,
    (remove_shrink (K := Int) (V := Option Int)).2 mainUpdated reachable_mainUpdated rfl rfl 1
      (le_refl 1) 2 1 3 (by decide) (by decide) (by decide) (by decide) (by decide)
      (by decide)⟩

/-- C11 (no empty table, index in range): in every reachable state, whatever
the capacity given to the constructor, the table has at least one bucket and
the index `hash key` of every key is below the table length, so that the bucket
read by `put`, `get` and `remove` is a bucket of the table. -/
theorem table_nonempty_index_in_range {m : MyChainingHashMap K V} (hr : Reachable m) :
    1 ≤ m.table.length ∧
      ∀ key : K, m.hash key < m.table.length ∧
        ∃ h : m.hash key < m.table.length, m.table.getD (m.hash key) [] = m.table[m.hash key] := by
  have hpos := hr.inv.tableOK.pos
  refine ⟨hpos, fun key => ?_⟩
  have hi : m.hash key < m.table.length := index_lt _ hpos key
  exact ⟨hi, hi, getD_eq _ _ hi⟩

/-- The index of key `-1` in the map built with capacity `-5`, clamped to one
bucket. -/
theorem table_nonempty_index_in_range_witness :
    Reachable (construct (-5) : MyChainingHashMap Int (Option Int)) ∧
      1 ≤ (construct (-5) : MyChainingHashMap Int (Option Int)).table.length ∧
      (construct (-5) : MyChainingHashMap Int (Option Int)).hash (-1)
        < (construct (-5) : MyChainingHashMap Int (Option Int)).table.length :=
  ⟨Reachable.construct (-5),
    (table_nonempty_index_in_range (Reachable.construct (-5))).1,
    ((table_nonempty_index_in_range (Reachable.construct (-5))).2 (-1)).1⟩

/-- C12 (construction): the default constructor builds four buckets, the
constructor with capacity `c` builds `max c 1` buckets for every integer `c`,
and in both cases `size` is `0`, `keys` is empty and `get` yields `nullptr` for
every key. -/
theorem construct_spec [HasNullptr V] :
    (constructDefault : MyChainingHashMap K V).table.length = 4 ∧
      (constructDefault : MyChainingHashMap K V).size = 0 ∧
      (constructDefault : MyChainingHashMap K V).keys = [] ∧
      (∀ key : K, (constructDefault : MyChainingHashMap K V).get key = HasNullptr.nullptr) ∧
      ∀ c : Int,
        (((construct c : MyChainingHashMap K V).table.length : Nat) : Int) = max c 1 ∧
        (construct c : MyChainingHashMap K V).size = 0 ∧
        (construct c : MyChainingHashMap K V).keys = [] ∧
        ∀ key : K, (construct c : MyChainingHashMap K V).get key = HasNullptr.nullptr := by
  have hnew : ∀ c : Int,
      (((construct c : MyChainingHashMap K V).table.length : Nat) : Int) = max c 1 ∧
      (construct c : MyChainingHashMap K V).size = 0 ∧
      (construct c : MyChainingHashMap K V).keys = [] ∧
      ∀ key : K, (construct c : MyChainingHashMap K V).get key = HasNullptr.nullptr := by
    intro c
    refine ⟨?_, rfl, ?_, ?_⟩
    · rw [construct_length]
      have : (1 : Int) ≤ max c 1 := le_max_right _ _
      omega
    · rw [keys_eq_map, construct_entries]; rfl
    · intro key
      apply get_of_absent
      rw [scan_eq_none_iff (construct_tableOK c), construct_entries]
      intro node hn
      exact absurd hn (List.not_mem_nil _)
  exact ⟨rfl, rfl, (hnew INIT_CAP).2.2.1, (hnew INIT_CAP).2.2.2, hnew⟩

/-- C14 (the scenario of `main`): on the default map the three insertions leave
`get 1 = 1` and `get 2 = 2`; after `put(1, 100)`, `get 1 = 100`; after
`remove(2)`, `get 2` is null and `keys` is `[1, 3]`; after `remove(1)`,
`remove(2)`, `remove(3)`, `get 1` is null and `size` is `0`. -/
theorem main_scenario :
    putF 1 (constructDefault : MyChainingHashMap Int (Option Int)) 1 (some 1) = some mainOne ∧
      putF 1 mainOne 2 (some 2) = some mainTwo ∧
      putF 1 mainTwo 3 (some 3) = some mainThree ∧
      mainThree.get 1 = some 1 ∧ mainThree.get 2 = some 2 ∧
      putF 1 mainThree 1 (some 100) = some mainUpdated ∧
      mainUpdated.get 1 = some 100 ∧
      removeF 1 mainUpdated 2 = some mainRemoved ∧
      mainRemoved.get 2 = none ∧ mainRemoved.keys = [1, 3] ∧
      removeF 1 mainRemoved 1 = some mainShrunk ∧
      removeF 1 mainShrunk 2 = some mainShrunk ∧
      removeF 1 mainShrunk 3 = some mainEmpty ∧
      mainEmpty.get 1 = none ∧ mainEmpty.size = 0 := by
  decide

/-- C15 (placement): in every reachable state every node of bucket `i` has a
key whose index, computed against the current table length, is `i`. -/
theorem bucket_placement {m : MyChainingHashMap K V} (hr : Reachable m) :
    ∀ (i : Nat) (h : i < m.table.length), ∀ node ∈ m.table[i], m.hash node.key = i :=
  hr.inv.tableOK.placed

/-- The placement of the node of key `3` in bucket `1` of the shrunk map of
`main`. -/
theorem bucket_placement_witness :
    Reachable mainShrunk ∧ mainShrunk.hash (3 : Int) = 1 :=
  ⟨reachable_mainShrunk,
    bucket_placement reachable_mainShrunk 1 (by decide) ⟨3, some 3⟩ (by decide)⟩

/-- C18 (load factor): in every reachable state the count is strictly below the
threshold of a grow of the current table, `4 * size < 3 * table.length`. -/
theorem load_factor {m : MyChainingHashMap K V} (hr : Reachable m) :
    4 * m.size < 3 * (m.table.length : Int) :=
  hr.inv.load

/-- The load of the map of `main` after the grow: three pairs, eight buckets. -/
theorem load_factor_witness :
    Reachable mainThree ∧ 4 * mainThree.size < 3 * (mainThree.table.length : Int) :=
  ⟨reachable_mainThree, load_factor reachable_mainThree⟩

/-- C20 (ambiguous null): on the default map, `put key nullptr` returns a state
in which `get key` yields `nullptr`, the result `get` yields on the empty map
for that key, although `key` occurs in `keys` and `size` is `1`. -/
theorem null_value_ambiguous [HasNullptr V] (key : K) :
    ∃ m' : MyChainingHashMap K V,
      putF 0 constructDefault key (HasNullptr.nullptr : V) = some m' ∧ Reachable m' ∧
      m'.get key = HasNullptr.nullptr ∧
      m'.get key = (constructDefault : MyChainingHashMap K V).get key ∧
      key ∈ m'.keys ∧ m'.size = 1 := by
  have hinv0 : Inv (constructDefault : MyChainingHashMap K V) := construct_inv INIT_CAP
  have hscan0 : (constructDefault : MyChainingHashMap K V).scan key = none := by
    rw [scan_eq_none_iff hinv0.tableOK]
    intro node hn
    rw [constructDefault, construct_entries] at hn
    exact absurd hn (List.not_mem_nil _)
  have h1 : (constructDefault : MyChainingHashMap K V).table.length = 4 := rfl
  have h2 : (constructDefault : MyChainingHashMap K V).size_ = 0 := rfl
  rcases putF_cases hinv0 0 key (HasNullptr.nullptr : V) with
    ⟨_, _, hg⟩ | ⟨_, hg, _⟩ | ⟨m', h, hpost⟩
  · rw [h1, h2] at hg
    norm_num at hg
  · rw [h1, h2] at hg
    norm_num at hg
  · have hs := put_scan_self hpost
    refine ⟨m', h, Reachable.put 0 key _ (Reachable.construct INIT_CAP) h, ?_, ?_, ?_, ?_⟩
    · rw [get_of_scan hs]
    · rw [get_of_scan hs, get_of_absent hscan0]
    · exact (mem_keys_iff hpost.inv.tableOK key).2 ⟨_, hs⟩
    · exact (hpost.absent hscan0).1

/-- C13 (capacity independence, refinement): whatever the initial capacity,
the state a sequence of `put` and `remove` calls returns agrees with the
reference finite map run on the same calls: same `get` for every key, same
`size`, the same keys up to their order.  A sequence of fewer than
`3 * 2 ^ 28 = 805306368` calls returns from every capacity, so two runs of it
from two capacities agree on `get`, on `size` and on the elements of `keys`.
The `805306368` calls `put(0, 0)`, ..., `put(805306367, 805306367)` return from
the capacity `INT_MAX`, whose table never grows, and for no depth of nesting
from the capacity `2 ^ 30`, where the last call requests a capacity that the
`int` parameter of `resize` receives as a negative number: the two runs do not
behave alike. -/
theorem capacity_independent [HasNullptr V] :
    (∀ (fuel : Nat) (c : Int) (ops : List (Op K V)) (m : MyChainingHashMap K V),
        run fuel (construct c) ops = some m →
        (∀ key, m.get key = refGet key (refRun ops)) ∧ m.size = refSize (refRun ops) ∧
          m.keys.Perm (refKeys (refRun ops))) ∧
      (∀ (fuel : Nat), 1 ≤ fuel → ∀ ops : List (Op K V),
        4 * (ops.length : Int) < 3 * 1073741824 →
        ∀ c1 c2 : Int, ∃ m1 m2 : MyChainingHashMap K V,
          run fuel (construct c1) ops = some m1 ∧ run fuel (construct c2) ops = some m2 ∧
          (∀ key, m1.get key = m2.get key) ∧ m1.size = m2.size ∧
          (∀ key, key ∈ m1.keys ↔ key ∈ m2.keys) ∧ m1.keys.Perm m2.keys) ∧
      ((fillOps 805306368).length = 805306368 ∧
        (∃ m, run 1 (construct 2147483647) (fillOps 805306368) = some m) ∧
        ∀ fuel, run fuel (construct 1073741824) (fillOps 805306368) = none) := by
  have href : ∀ (fuel : Nat) (c : Int) (ops : List (Op K V)) (m : MyChainingHashMap K V),
      run fuel (construct c) ops = some m → Refines m (refRun ops) :=
    fun fuel c ops m h => run_refines fuel ops _ m [] (refines_construct c) h
  have hret : ∀ (fuel : Nat), 1 ≤ fuel → ∀ ops : List (Op K V),
      4 * (ops.length : Int) < 3 * 1073741824 → ∀ c : Int,
      ∃ m : MyChainingHashMap K V, run fuel (construct c) ops = some m := by
    intro fuel hfuel ops hb c
    apply run_returns fuel hfuel ops _ (construct_inv c)
    have : (construct c : MyChainingHashMap K V).size_ = 0 := rfl
    rw [this]
    omega
  refine ⟨?_, ?_, fillOps_length _, bigOps_run_some, bigOps_run_none⟩
  · intro fuel c ops m h
    have r := href fuel c ops m h
    exact ⟨r.get_eq, r.size_eq, r.keys_perm⟩
  · intro fuel hfuel ops hb c1 c2
    obtain ⟨m1, h1⟩ := hret fuel hfuel ops hb c1
    obtain ⟨m2, h2⟩ := hret fuel hfuel ops hb c2
    have r1 := href fuel c1 ops m1 h1
    have r2 := href fuel c2 ops m2 h2
    have hp : m1.keys.Perm m2.keys := r1.keys_perm.trans r2.keys_perm.symm
    refine ⟨m1, m2, h1, h2, ?_, ?_, fun key => hp.mem_iff, hp⟩
    · intro key; rw [r1.get_eq, r2.get_eq]
    · rw [r1.size_eq, r2.size_eq]

/-- The calls of `main` from the capacities `4` and `1`, and the state of `main`
after them compared with the reference finite map. -/
theorem capacity_independent_witness :
    1 ≤ 1 ∧
      4 * (([Op.put 1 (some 1), Op.put 2 (some 2), Op.put 3 (some 3), Op.put 1 (some 100),
        Op.remove 2] : List (Op Int (Option Int))).length : Int) < 3 * 1073741824 ∧
      (∃ m1 m2 : MyChainingHashMap Int (Option Int),
        run 1 (construct 4)
            [Op.put 1 (some 1), Op.put 2 (some 2), Op.put 3 (some 3), Op.put 1 (some 100),
              Op.remove 2] = some m1 ∧
        run 1 (construct 1)
            [Op.put 1 (some 1), Op.put 2 (some 2), Op.put 3 (some 3), Op.put 1 (some 100),
              Op.remove 2] = some m2 ∧
        (∀ key, m1.get key = m2.get key) ∧ m1.size = m2.size ∧
        (∀ key, key ∈ m1.keys ↔ key ∈ m2.keys) ∧ m1.keys.Perm m2.keys) ∧
      run 1 (construct 4)
          [Op.put 1 (some 1), Op.put 2 (some 2), Op.put 3 (some 3), Op.put 1 (some 100),
            Op.remove 2] = some mainRemoved ∧
      mainRemoved.size
        = refSize (refRun ([Op.put 1 (some 1), Op.put 2 (some 2), Op.put 3 (some 3),
            Op.put 1 (some 100), Op.remove 2] : List (Op Int (Option Int)))) :=
  ⟨le_refl 1, by decide,
    (capacity_independent (K := Int) (V := Option Int)).2.1 1 (le_refl 1)
      [Op.put 1 (some 1), Op.put 2 (some 2), Op.put 3 (some 3), Op.put 1 (some 100),
        Op.remove 2] (by decide) 4 1,
    by decide,
    ((capacity_independent (K := Int) (V := Option Int)).1 1 4
      [Op.put 1 (some 1), Op.put 2 (some 2), Op.put 3 (some 3), Op.put 1 (some 100),
        Op.remove 2] mainRemoved (by decide)).2.1⟩

/-- C17 as stated fails on the default map: after `put(1, 1)` the call
`remove(1)` shrinks the table from four buckets to one, and the `put(2, 2)` of a
new key that follows grows it from one bucket to two. -/
theorem no_thrashing_counterexample :
    Reachable mainOne ∧ (1 : Int) ∈ mainOne.keys ∧
      mainOne.size - 1 ≤ ((mainOne.table.length / 8 : Nat) : Int) ∧
      removeF 1 mainOne 1 = some mainEmpty ∧ mainOne.table.length = 4 ∧
      mainEmpty.table.length = 1 ∧ (2 : Int) ∉ mainEmpty.keys ∧
      putF 1 mainEmpty 2 (some 2) = some mainRegrown ∧
      mainRegrown.table.length ≠ mainEmpty.table.length :=
  ⟨reachable_mainOne, by decide, by decide, by decide, by decide, by decide, by decide,
    by decide, by decide⟩

/-- C17 amended (thrashing after a shrink): from every reachable state with `L`
buckets and count `n + 1` in which `remove key` triggers a shrink, the removal
returns a table of `max (L / 4) 1` buckets, and a `put` of a key that is new
after the removal returns right afterwards and grows that table exactly when
`3 * max (L / 4) 1 ≤ 4 * (n + 1)`; it leaves the table length as the shrink left
it whenever `20 ≤ L`. -/
theorem no_thrashing_large {m : MyChainingHashMap K V} (hr : Reachable m) (fuel : Nat)
    (hfuel : 1 ≤ fuel) (key : K) (hstored : key ∈ m.keys)
    (hshrink : m.size - 1 ≤ ((m.table.length / 8 : Nat) : Int)) (key' : K) (val : V)
    (hnew : key' ∈ m.keys → key' = key) :
    ∃ m1 m2, removeF fuel m key = some m1 ∧ m1.table.length = max (m.table.length / 4) 1 ∧
      key' ∉ m1.keys ∧ putF fuel m1 key' val = some m2 ∧
      (m2.table.length =
        if 3 * ((max (m.table.length / 4) 1 : Nat) : Int) ≤ 4 * m.size then
          2 * m1.table.length
        else m1.table.length) ∧
      (20 ≤ m.table.length → m2.table.length = m1.table.length) := by
  have hinv := hr.inv
  change m.size_ - 1 ≤ _ at hshrink
  obtain ⟨old, hs⟩ := (mem_keys_iff hinv.tableOK key).1 hstored
  obtain ⟨m1, h1, p1⟩ := removeF_returns hinv fuel hfuel key
  obtain ⟨s1, l1⟩ := p1.stored old hs
  rw [if_pos hshrink] at l1
  have hs' : m1.scan key' = none := by
    by_cases hk : key = key'
    · rw [← hk]; exact remove_scan_self p1
    · rw [remove_frame hinv p1 hk]
      exact (not_mem_keys_iff hinv.tableOK key').1 (fun hmem => hk (hnew hmem).symm)
  have habs : key' ∉ m1.keys := (not_mem_keys_iff p1.inv.tableOK key').2 hs'
  have hfit : 3 * (m1.table.length : Int) ≤ 4 * (m1.size_ + 1) →
      m1.table.length < 1073741824 := by
    intro hg
    rw [l1] at hg ⊢
    rw [s1] at hg
    rcases Nat.lt_or_ge (m.table.length / 4) 1 with h4 | h4
    · rw [max_eq_right (by omega)]
      omega
    · rw [max_eq_left h4] at hg ⊢
      omega
  obtain ⟨m2, h2, p2⟩ := putF_returns p1.inv fuel hfuel key' val hfit
  obtain ⟨s2, l2⟩ := p2.absent hs'
  have hsz : m1.size_ + 1 = m.size_ := by rw [s1]; omega
  rw [hsz, l1] at l2
  refine ⟨m1, m2, h1, l1, habs, h2, ?_, ?_⟩
  · rw [l2, l1, Nat.mul_comm]
    rfl
  · intro hL
    rw [l2, l1, if_neg]
    have hq : 5 ≤ m.table.length / 4 := by omega
    rw [max_eq_left (by omega)]
    omega

/-- The shrink of the map `wideOne` from thirty-two buckets to eight, followed
by `put(2, 2)`, which keeps the eight buckets. -/
theorem no_thrashing_large_witness :
    Reachable wideOne ∧ 1 ≤ 1 ∧ (1 : Int) ∈ wideOne.keys ∧
      wideOne.size - 1 ≤ ((wideOne.table.length / 8 : Nat) : Int) ∧
      ((2 : Int) ∈ wideOne.keys → (2 : Int) = 1) ∧ 20 ≤ wideOne.table.length ∧
      ∃ m1 m2, removeF 1 wideOne 1 = some m1 ∧ m1.table.length = 8 ∧
        putF 1 m1 2 (some 2) = some m2 ∧ m2.table.length = m1.table.length :=
  ⟨reachable_wideOne, le_refl 1, by decide, by decide, by decide, by decide,
    match no_thrashing_large reachable_wideOne 1 (le_refl 1) 1 (by decide) (by decide) 2
        (some 2) (by decide) with
    | ⟨m1, m2, h1, hl, _, h2, _, hbig⟩ => ⟨m1, m2, h1, hl, h2, hbig (by decide)⟩⟩

/-- C16 as stated fails: from the capacity sixteen, `put(5, 5)`, `put(1, 1)`,
`put(2, 2)` and `remove(2)` leave a table of four buckets whose bucket `1` holds
the key `1` before the key `5`, although `5` was inserted before `1`. -/
theorem bucket_order_counterexample :
    Traced false orderShrunk [5, 1] ∧
      (orderShrunk.table.getD 1 []).map KVNode.key = [1, 5] ∧
      ¬ ((orderShrunk.table.getD 1 []).map KVNode.key).Sublist [5, 1] :=
  ⟨traced_orderShrunk, by decide, by decide⟩

/-- C16 amended (bucket order): in every state reached from a constructor by
`put` and `remove` calls none of whose removals changed the table length, the
list of the stored keys in the order of their insertion has no duplicate, and
the keys of every bucket are the keys of that list with the index of the
bucket, in the order of the list; grows that rebuilt the table are included. -/
theorem bucket_order_kept {m : MyChainingHashMap K V} {order : List K}
    (h : Traced true m order) :
    order.Nodup ∧ ∀ (i : Nat) (hi : i < m.table.length),
      m.table[i].map KVNode.key = order.filter (fun k => decide (m.hash k = i)) ∧
      (m.table[i].map KVNode.key).Sublist order := by
  have ho := h.ordered
  refine ⟨ho.nodup, fun i hi => ?_⟩
  have hb := ho.buckets i hi
  refine ⟨hb, ?_⟩
  rw [hb]
  exact List.filter_sublist _

/-- The order of bucket `3` of the map of `main` after its grow, its update and
its `remove(2)`. -/
theorem bucket_order_kept_witness :
    Traced true mainRemoved [1, 3] ∧
      ([1, 3] : List Int).Nodup ∧
      (mainRemoved.table.getD 3 []).map KVNode.key
        = ([1, 3] : List Int).filter (fun k => decide (mainRemoved.hash k = 3)) ∧
      ((mainRemoved.table.getD 3 []).map KVNode.key).Sublist [1, 3] :=
  ⟨traced_mainRemoved, (bucket_order_kept traced_mainRemoved).1,
    ((bucket_order_kept traced_mainRemoved).2 3 (by decide)).1,
    ((bucket_order_kept traced_mainRemoved).2 3 (by decide)).2⟩

end Contract

end MyChainingHashMap
